import Mathlib

set_option maxRecDepth 100000

/-!
Verification of the Confluence tree-synchronization scripts
(`download_confluence.py` / `upload_confluence.py`).

The Python string type is embedded as `List Char`; each definition below is a
direct translation of the corresponding Python function, with the source
function named in its doc comment.  Remote HTTP calls are modelled as pure
functions supplied as parameters, and the MD5 digest is likewise a parameter
(the claims under study depend only on *which* strings are hashed, never on
the internals of MD5).
-/

namespace ConfluenceSync

/-- Shorthand: the character list underlying a Lean string literal. -/
def str (s : String) : List Char := s.data

/-! ### Python string primitives -/

/-- Characters stripped by Python `str.strip()` (ASCII whitespace). -/
def pyIsSpace (c : Char) : Bool :=
  c = ' ' || c = '\t' || c = '\n' || c = '\r' || c = '\x0b' || c = '\x0c'

/-- Python `str.lstrip()`. -/
def pyStripL (s : List Char) : List Char := s.dropWhile pyIsSpace

/-- Python `str.rstrip()`. -/
def pyStripR (s : List Char) : List Char := (s.reverse.dropWhile pyIsSpace).reverse

/-- Python `str.strip()`. -/
def pyStrip (s : List Char) : List Char := pyStripR (pyStripL s)

/-- `startsWith pre s` is Python `s.startswith(pre)`. -/
def startsWith : List Char → List Char → Bool
  | [], _ => true
  | _ :: _, [] => false
  | a :: as, b :: bs => a = b && startsWith as bs

/-- Python `s.find(needle)` (0-based index of the leftmost occurrence),
as an `Option` instead of the `-1` sentinel. -/
def findSub (needle : List Char) : List Char → Option Nat
  | [] => if needle.isEmpty then some 0 else none
  | c :: rest =>
    if startsWith needle (c :: rest) then some 0
    else (findSub needle rest).map (· + 1)

/-- Auxiliary state machine for Python `str.splitlines()`:
`acc` holds the current (reversed) line. -/
def splitlinesGo : List Char → List Char → List (List Char)
  | acc, [] => if acc.isEmpty then [] else [acc.reverse]
  | acc, '\r' :: '\n' :: rest => acc.reverse :: splitlinesGo [] rest
  | acc, '\r' :: rest => acc.reverse :: splitlinesGo [] rest
  | acc, '\n' :: rest => acc.reverse :: splitlinesGo [] rest
  | acc, c :: rest => splitlinesGo (c :: acc) rest

/-- Python `str.splitlines()` restricted to the line breaks that can occur in
the strings this repository manipulates (`\n`, `\r`, `\r\n`). -/
def pySplitlines (s : List Char) : List (List Char) := splitlinesGo [] s

/-- Split at the first occurrence of `sep`, Python `s.split(sep, 1)` when it
succeeds; `none` when `sep` does not occur (models the `":" in line` guard
together with `line.split(":", 1)`). -/
def splitFirstAt (sep : Char) : List Char → Option (List Char × List Char)
  | [] => none
  | c :: rest =>
    if c = sep then some ([], rest)
    else (splitFirstAt sep rest).map (fun p => (c :: p.1, p.2))

/-- Python `s.split(sep, maxsplit)` for a non-empty separator string. -/
def pySplit (sep : List Char) : Nat → List Char → List (List Char)
  | 0, s => [s]
  | maxsplit + 1, s =>
    match findSub sep s with
    | none => [s]
    | some i => s.take i :: pySplit sep maxsplit (s.drop (i + sep.length))

/-- Python `'\n'.join(lines)`. -/
def pyJoinNL : List (List Char) → List Char
  | [] => []
  | [l] => l
  | l :: l2 :: ls => l ++ '\n' :: pyJoinNL (l2 :: ls)

/-- Python `int(s)` on a string: optional surrounding whitespace, optional
sign, then a non-empty run of ASCII digits; `none` models the `ValueError`
raised on any other input.  (Grouping underscores accepted by CPython are not
modelled; no input in this development contains them.) -/
def pyDigits? (ds : List Char) : Option Nat :=
  if ds.isEmpty then none
  else if ds.all (fun c => '0' ≤ c && c ≤ '9') then
    some (ds.foldl (fun n c => n * 10 + (c.toNat - '0'.toNat)) 0)
  else none

/-- Python `int(s)`; see `pyDigits?`. -/
def pyInt (s : List Char) : Option Int :=
  match pyStrip s with
  | '-' :: ds => (pyDigits? ds).map (fun n => -(n : Int))
  | '+' :: ds => (pyDigits? ds).map (fun n => (n : Int))
  | ds => (pyDigits? ds).map (fun n => (n : Int))

/-- ASCII lower-casing of one character, the effect of Python `str.lower()`
and of `re.IGNORECASE` on the ASCII-only patterns used in these scripts. -/
def lowerChar (c : Char) : Char :=
  if 65 ≤ c.toNat && c.toNat ≤ 90 then Char.ofNat (c.toNat + 32) else c

/-- Python `str.lower()` (ASCII). -/
def pyLower (s : List Char) : List Char := s.map lowerChar

/-! ### Python `dict` as an insertion-ordered association list -/

/-- `d[k] = v` on a Python `dict`: overwrite in place, else append. -/
def dictInsert : List (List Char × List Char) → List Char → List Char →
    List (List Char × List Char)
  | [], k, v => [(k, v)]
  | (k', v') :: t, k, v =>
    if k' = k then (k', v) :: t else (k', v') :: dictInsert t k v

/-- `d.get(k)` on a Python `dict`. -/
def dictGet : List (List Char × List Char) → List Char → Option (List Char)
  | [], _ => none
  | (k', v') :: t, k => if k' = k then some v' else dictGet t k

/-! ### Snapshot codec: `parse_front_matter` (upload_confluence.py, lines 147-186) -/

/-- One front-matter line, as matched by `re.match(r'([^:]+):\s*(.+)', line)`:
the match succeeds exactly when the line contains a colon with at least one
character before the first colon and at least one character after it; group 1
is the text before the first colon.  Because `\s*` is greedy with
backtracking, `group(2).strip()` always equals the strip of the whole text
after the first colon (the lines fed to this function never contain `\n` or
`\r`, both being line separators for `splitlines`). -/
def parseMetaLine (line : List Char) : Option (List Char × List Char) :=
  match splitFirstAt ':' line with
  | none => none
  | some (before, after) =>
    if before.isEmpty || after.isEmpty then none
    else some (pyStrip before, pyStrip after)

/-- `front[m.group(1).strip()] = m.group(2).strip()` guarded by the regex. -/
def insertParsedLine (d : List (List Char × List Char)) (line : List Char) :
    List (List Char × List Char) :=
  match parseMetaLine line with
  | some kv => dictInsert d kv.1 kv.2
  | none => d

/-- The loop over `front_block.splitlines()` in the well-formed branch. -/
def parseFrontLines (lines : List (List Char)) : List (List Char × List Char) :=
  lines.foldl insertParsedLine []

/-- Legacy fallback of `parse_front_matter`, scanning after the first `---`
line: parse lines until the second `---` line; `some rest` are the body
lines. -/
def fbScanFront (front : List (List Char × List Char)) :
    List (List Char) → List (List Char × List Char) × Option (List (List Char))
  | [] => (front, none)
  | l :: ls =>
    if pyStrip l = str "---" then (front, some ls)
    else fbScanFront (insertParsedLine front l) ls

/-- Legacy fallback of `parse_front_matter`: skip lines until the first `---`
line (nothing before it is parsed, matching the `in_front` flag). -/
def fbScanStart : List (List Char) →
    List (List Char × List Char) × Option (List (List Char))
  | [] => ([], none)
  | l :: ls =>
    if pyStrip l = str "---" then fbScanFront [] ls
    else fbScanStart ls

/-- `parse_front_matter` (upload_confluence.py, lines 147-186).  Returns the
front-matter dictionary and the body, preserving the exact body text in the
well-formed branch.  The `newline` detection, double-delimiter search with
`str.find`, and legacy `splitlines` fallback all follow the source. -/
def parse_front_matter (content : List Char) :
    List (List Char × List Char) × List Char :=
  if ¬ startsWith (str "---") content then ([], content)
  else
    let newline := if startsWith (str "---\r\n") content then str "\r\n" else str "\n"
    let closing := newline ++ str "---" ++ newline
    let start_offset := (str "---").length + newline.length
    match findSub closing (content.drop start_offset) with
    | none =>
      let scanned := fbScanStart (pySplitlines content)
      let body := match scanned.2 with
        | some ls => pyJoinNL ls
        | none => []
      (scanned.1, body)
    | some j =>
      let end_index := j + start_offset
      let front_block := (content.take end_index).drop start_offset
      let body := content.drop (end_index + closing.length)
      (parseFrontLines (pySplitlines front_block), body)

/-! ### Snapshot record encoding (the front matter written by `save_page`,
download_confluence.py lines 398-413) -/

/-- The eleven front-matter fields of a snapshot record, in the order
`save_page` writes them.  `mStructured`, `mImage`, `mLink` are the values of
the keys `macro_structured_macro`, `macro_image`, `macro_link`. -/
structure Meta where
  source : List Char
  confluence_id : List Char
  space : List Char
  version : List Char
  retrieved : List Char
  format : List Char
  content_hash : List Char
  mStructured : List Char
  mImage : List Char
  mLink : List Char
  output_hash : List Char
deriving DecidableEq

/-- The key/value pairs of a record's front matter in written order. -/
def metaPairs (m : Meta) : List (List Char × List Char) :=
  [(str "source", m.source), (str "confluence_id", m.confluence_id),
   (str "space", m.space), (str "version", m.version),
   (str "retrieved", m.retrieved), (str "format", m.format),
   (str "content_hash", m.content_hash),
   (str "macro_structured_macro", m.mStructured),
   (str "macro_image", m.mImage), (str "macro_link", m.mLink),
   (str "output_hash", m.output_hash)]

/-- The values of the eleven fields. -/
def metaValues (m : Meta) : List (List Char) := (metaPairs m).map (fun p => p.2)

/-- Join lines, appending `\n` after every element (each front-matter line of
`save_page` is an f-string ending in `\n`). -/
def joinLn : List (List Char) → List Char
  | [] => []
  | w :: ws => w ++ '\n' :: joinLn ws

/-- The interior lines `key: value` of the front matter. -/
def metaBody (m : Meta) : List (List Char) :=
  (metaPairs m).map (fun p => p.1 ++ ':' :: ' ' :: p.2)

/-- The complete front-matter block written by `save_page`
(download_confluence.py lines 398-412), `---\n`, one `key: value\n` line per
field, `---\n`. -/
def front_matter_block (m : Meta) : List Char :=
  str "---\n" ++ joinLn (metaBody m) ++ str "---\n"

/-- A full snapshot record as written to disk: front matter then body,
byte for byte (`file_path.write_text(front_matter + output_xhtml)`). -/
def encodeRecord (m : Meta) (body : List Char) : List Char :=
  front_matter_block m ++ body

/-- `v` does not begin with a whitespace character (vacuously true for the
empty value). -/
def firstNonSpace : List Char → Bool
  | [] => true
  | c :: _ => !pyIsSpace c

/-- A front-matter value is well formed when it contains no line break and no
surrounding whitespace (every value `save_page` writes — URLs, ids, digits,
hex digests, ISO timestamps, possibly empty hashes — satisfies this). -/
def cleanValue (v : List Char) : Bool :=
  !v.contains '\n' && !v.contains '\r' && firstNonSpace v && firstNonSpace v.reverse

/-- A metadata map is valid when every value is `cleanValue`. -/
def ValidMeta (m : Meta) : Prop := ∀ v ∈ metaValues m, cleanValue v = true

/-- `v` does not contain the delimiter string `---`. -/
def noDashes (v : List Char) : Bool := (findSub (str "---") v).isNone

/-- Valid metadata whose values avoid the `---` delimiter. -/
def ValidMetaND (m : Meta) : Prop :=
  ValidMeta m ∧ ∀ v ∈ metaValues m, noDashes v = true

instance (m : Meta) : Decidable (ValidMeta m) := by
  unfold ValidMeta
  infer_instance

instance (m : Meta) : Decidable (ValidMetaND m) := by
  unfold ValidMetaND
  infer_instance

/-! ### Hashing and macro counts -/

/-- `get_md5_exact` (upload_confluence.py, lines 195-197): the digest of the
content exactly as-is, with the empty string mapped to the empty-string
sentinel instead of the hash of empty input.  The digest function itself is a
parameter: every claim below holds for an arbitrary digest. -/
def get_md5_exact (md5 : List Char → List Char) (content : List Char) : List Char :=
  if content.isEmpty then [] else md5 content

/-- Number of non-overlapping occurrences of the literal pattern `pat`,
scanning left to right — the semantics of `len(re.findall(pat, content))`
for a regex with no metacharacters. -/
def countOccur (pat : List Char) : List Char → Nat
  | [] => 0
  | c :: rest =>
    if startsWith pat (c :: rest) then
      1 + countOccur pat (rest.drop (pat.length - 1))
    else countOccur pat rest
termination_by s => s.length
decreasing_by
· simp only [List.length_cons, List.length_drop]; omega
· simp only [List.length_cons]; omega

/-- The three macro counts returned by `get_macro_counts`
(upload_confluence.py, lines 188-193) and by the local `macro_counts` helper
of `save_page` (download_confluence.py, lines 366-372). -/
structure MacroCounts where
  structuredMacros : Nat
  images : Nat
  links : Nat
deriving DecidableEq

/-- `get_macro_counts` (upload_confluence.py, lines 188-193). -/
def get_macro_counts (content : List Char) : MacroCounts :=
  ⟨countOccur (str "<ac:structured-macro") content,
   countOccur (str "<ac:image") content,
   countOccur (str "<ac:link") content⟩

/-! ### The readability transform (`_add_linebreaks_after_tags`,
download_confluence.py lines 217-227) -/

/-- The tag names of the closing-tag alternation in the pattern
`(</(?:p|li|tr|td|th|h[1-6]|pre|blockquote|div|table)>)`. -/
def tagNames : List (List Char) :=
  [str "p", str "li", str "tr", str "td", str "th",
   str "h1", str "h2", str "h3", str "h4", str "h5", str "h6",
   str "pre", str "blockquote", str "div", str "table"]

/-- The closing-tag literals `</name>`. -/
def tagLits : List (List Char) := tagNames.map (fun n => '<' :: '/' :: (n ++ ['>']))

/-- `lit` (given in lower case) matches the start of `s` case-insensitively
(ASCII folding, the effect of `re.IGNORECASE` here). -/
def isLowerPrefixOf : List Char → List Char → Bool
  | [], _ => true
  | _ :: _, [] => false
  | a :: as, c :: cs => a = lowerChar c && isLowerPrefixOf as cs

/-- The regex match attempt at the start of `s`: the length of the matched
closing-tag literal, if any.  At most one alternative can match at a given
position (no tag literal is a prefix of another), so the alternation order is
immaterial. -/
def matchTag (s : List Char) : Option Nat :=
  tagLits.findSome? (fun lit => if isLowerPrefixOf lit s then some lit.length else none)

/-- `_add_linebreaks_after_tags` (download_confluence.py, lines 217-227):
`pattern.sub(r"\1" + newline, xhtml)` — left-to-right scan inserting
`newline` after every non-overlapping match of a closing-tag literal. -/
def add_linebreaks_after_tags (nl : List Char) : List Char → List Char
  | [] => []
  | c :: rest =>
    match h : matchTag (c :: rest) with
    | some n => (c :: rest).take n ++ nl ++ add_linebreaks_after_tags nl ((c :: rest).drop n)
    | none => c :: add_linebreaks_after_tags nl rest
termination_by s => s.length
decreasing_by
· have hpos : 0 < n := by
    simp only [matchTag] at h
    obtain ⟨lit, hmem, hlit⟩ := List.exists_of_findSome?_eq_some h
    have hlen : ∀ l ∈ tagLits, 0 < l.length := by decide
    by_cases hp : isLowerPrefixOf lit (c :: rest)
    · simp only [hp, if_true, Option.some.injEq] at hlit
      exact hlit ▸ hlen lit hmem
    · simp [hp] at hlit
  simp only [List.length_cons, List.length_drop]
  omega
· simp only [List.length_cons]; omega

/-! ### Diff/upload planner (`main` of upload_confluence.py, lines 349-424)

The per-file loop body is modelled as a pure function.  Credential resolution
(lines 368-374: `_extract_base_url_from_source`, `_get_site_creds`,
`get_auth_header`, all inside a `try` whose failure skips the file) is
abstracted as a parameter `creds`; the remote endpoints `get_page` /
`update_page` are a parameter `Remote` whose `none` results model the caught
request exceptions.  The emitted effects (remote calls, skip/update outcome,
macro-count warnings) are returned explicitly; an uncaught exception is an
`Except.error`. -/

/-- The remote page data the upload path reads: `current_page['title']` and
`current_page['version']['number']`. -/
structure PageInfo where
  title : List Char
  version : Nat
deriving DecidableEq

/-- The remote endpoints used by the upload path.  `none` models a raised
`requests` exception (caught by the per-file `try`). -/
structure Remote where
  getPage : List Char → Option PageInfo
  update : List Char → List Char → List Char → Nat → Option Nat

/-- One HTTP call made by the upload path. -/
inductive RemoteCall where
  | getPage (id : List Char)
  | updatePage (id title body : List Char) (version : Nat)
deriving DecidableEq

/-- The three macro kinds whose count decrease triggers a warning. -/
inductive MacroKind where
  | structuredM
  | image
  | link
deriving DecidableEq

/-- Per-file outcome of the upload loop body. -/
inductive Outcome where
  | skippedNoId
  | skippedNoSource
  | skippedCreds
  | skippedUnchanged
  | wouldUpdate (version : Nat)
  | updated (version : Nat)
  | failed
deriving DecidableEq

/-- An uncaught exception escaping the per-file loop body: the `ValueError`
raised by `int(meta.get('macro_…', 0))` on a non-integer front-matter value
(upload_confluence.py lines 400-402, *outside* both `try` blocks). -/
inductive CrashInfo where
  | intParse (key : List Char)
deriving DecidableEq

/-- `int(meta.get(key, 0))`: the recorded macro count, `0` when the key is
absent, and `none` (a `ValueError`) when the value is not an integer
literal. -/
def getCountField (meta : List (List Char × List Char)) (key : List Char) :
    Option Int :=
  match dictGet meta key with
  | none => some 0
  | some v => pyInt v

/-- The warning list of upload_confluence.py lines 403-408: one entry per
macro kind whose recomputed count is below the recorded count (the recorded
count being positive). -/
def macroWarnings (os oi ol : Int) (nc : MacroCounts) : List MacroKind :=
  (if 0 < os ∧ (nc.structuredMacros : Int) < os then [MacroKind.structuredM] else [])
    ++ (if 0 < oi ∧ (nc.images : Int) < oi then [MacroKind.image] else [])
    ++ (if 0 < ol ∧ (nc.links : Int) < ol then [MacroKind.link] else [])

/-- The loop body of `main` (upload_confluence.py, lines 349-424) for one
`.xhtml` file with text `content`. -/
def processFile (md5 : List Char → List Char) (creds : List Char → Option Unit)
    (remote : Remote) (dryRun : Bool) (content : List Char) :
    Except CrashInfo (Outcome × List RemoteCall × List MacroKind) :=
  let pm := parse_front_matter content
  let meta := pm.1
  let body := pm.2
  if meta.isEmpty ∨ dictGet meta (str "confluence_id") = none then
    .ok (.skippedNoId, [], [])
  else
    match dictGet meta (str "source") with
    | none => .ok (.skippedNoSource, [], [])
    | some src =>
      if (pyStrip src).isEmpty then .ok (.skippedNoSource, [], [])
      else
        match creds src with
        | none => .ok (.skippedCreds, [], [])
        | some _ =>
          let unchanged : Bool :=
            match dictGet meta (str "output_hash") with
            | some h => decide (get_md5_exact md5 body = h)
            | none => false
          if unchanged then .ok (.skippedUnchanged, [], [])
          else
            match getCountField meta (str "macro_structured_macro") with
            | none => .error (.intParse (str "macro_structured_macro"))
            | some os =>
              match getCountField meta (str "macro_image") with
              | none => .error (.intParse (str "macro_image"))
              | some oi =>
                match getCountField meta (str "macro_link") with
                | none => .error (.intParse (str "macro_link"))
                | some ol =>
                  let warns := macroWarnings os oi ol (get_macro_counts body)
                  let pid := (dictGet meta (str "confluence_id")).getD []
                  match remote.getPage pid with
                  | none => .ok (.failed, [RemoteCall.getPage pid], warns)
                  | some page =>
                    let newV := page.version + 1
                    if dryRun then
                      .ok (.wouldUpdate newV, [RemoteCall.getPage pid], warns)
                    else
                      match remote.update pid page.title body newV with
                      | none =>
                        .ok (.failed,
                          [RemoteCall.getPage pid,
                           RemoteCall.updatePage pid page.title body newV], warns)
                      | some rv =>
                        .ok (.updated rv,
                          [RemoteCall.getPage pid,
                           RemoteCall.updatePage pid page.title body newV], warns)

/-- The whole upload batch (`for file in files:`).  A caught per-file failure
moves on to the next file; an uncaught exception aborts the remaining
files. -/
def processFiles (md5 : List Char → List Char) (creds : List Char → Option Unit)
    (remote : Remote) (dryRun : Bool) :
    List (List Char) → List Outcome × List RemoteCall × Option CrashInfo
  | [] => ([], [], none)
  | f :: fs =>
    match processFile md5 creds remote dryRun f with
    | .error e => ([], [], some e)
    | .ok (o, calls, _) =>
      let r := processFiles md5 creds remote dryRun fs
      (o :: r.1, calls ++ r.2.1, r.2.2)

/-! ### Snapshot writer (`save_page`, download_confluence.py lines 256-415)

Attachment and inline-image downloads (lines 273-336) are I/O side effects
with no influence on the record contents or the write decision and are not
modelled.  The wall-clock `retrieved` timestamp and the source URL derived
from the page links are passed in as parameters. -/

/-- The page data `save_page` reads from the fetched JSON. -/
structure Page where
  title : List Char
  id : List Char
  xhtml : List Char
  version : Nat
  space : List Char
deriving DecidableEq

/-- Python `str(n)` for a natural number. -/
def natStr (n : Nat) : List Char := (toString n).data

/-- The inline front-matter recovery of `save_page`
(download_confluence.py, lines 374-387): `existing_text.split("---", 2)`,
then `parts[1].strip().splitlines()` with `line.split(":", 1)` per line. -/
def parseExistingMeta (text : List Char) : List (List Char × List Char) :=
  if startsWith (str "---") text then
    match pySplit (str "---") 2 text with
    | _ :: p1 :: _ :: _ =>
      (pySplitlines (pyStrip p1)).foldl
        (fun d line =>
          match splitFirstAt ':' line with
          | some kv => dictInsert d (pyStrip kv.1) (pyStrip kv.2)
          | none => d) []
    | _ => []
  else []

/-- What `save_page` computes and does (download_confluence.py lines
338-415): the rendered body, the two digests, the recovered metadata of the
existing file, and the write — `none` when the write is suppressed. -/
structure SaveResult where
  output_xhtml : List Char
  content_hash : List Char
  output_hash : List Char
  existing_meta : List (List Char × List Char)
  written : Option (List Char)
deriving DecidableEq

/-- `save_page` (download_confluence.py, lines 256-415), hashing and write
decision.  `existing` is the current text of the target file, when it
exists.  The `try/except` around the readability transform is dropped: the
modelled transform is total. -/
def save_page (md5 : List Char → List Char) (linebreak_mode : List Char)
    (page : Page) (source_url : List Char) (retrieved : List Char)
    (existing : Option (List Char)) : SaveResult :=
  let xhtml := page.xhtml
  let output_xhtml :=
    if ¬ linebreak_mode.isEmpty ∧ pyLower linebreak_mode = str "tags" then
      add_linebreaks_after_tags ['\n'] xhtml
    else xhtml
  let content_hash := if xhtml.isEmpty then [] else md5 xhtml
  let output_hash := if output_xhtml.isEmpty then [] else md5 output_xhtml
  let cnts := get_macro_counts xhtml
  let existing_meta :=
    match existing with
    | some t => parseExistingMeta t
    | none => []
  if dictGet existing_meta (str "output_hash") = some output_hash
      ∧ dictGet existing_meta (str "content_hash") = some content_hash
      ∧ dictGet existing_meta (str "version") = some (natStr page.version) then
    ⟨output_xhtml, content_hash, output_hash, existing_meta, none⟩
  else
    let m : Meta :=
      ⟨source_url, page.id, page.space, natStr page.version, retrieved,
       str "xhtml", content_hash, natStr cnts.structuredMacros,
       natStr cnts.images, natStr cnts.links, output_hash⟩
    ⟨output_xhtml, content_hash, output_hash, existing_meta,
     some (encodeRecord m output_xhtml)⟩

/-! ### Tree walker (`download_tree`, download_confluence.py lines 417-440)

The remote is abstracted as the `children` function (`get_children`); the
walk returns the final visited set and the ids passed to `get_page`, in
fetch order.  The recursion terminates because each level increments `depth`,
bounded by `max_depth` — the same measure the Python recursion relies on. -/

mutual
/-- `download_tree`: return unchanged when the id was already seen or the
depth bound is exceeded; otherwise mark the id seen, fetch it, then recurse
into its children at `depth + 1` threading the shared `seen` set. -/
def download_tree (children : List Char → List (List Char)) (maxDepth : Nat)
    (root : List Char) (depth : Nat) (seen : List (List Char)) :
    List (List Char) × List (List Char) :=
  if root ∈ seen ∨ maxDepth < depth then (seen, [])
  else
    let res := download_children children maxDepth (children root) (depth + 1) (root :: seen)
    (res.1, root :: res.2)
termination_by (maxDepth + 1 - depth, 0)

/-- The `for child in get_children(...)` loop of `download_tree`. -/
def download_children (children : List Char → List (List Char)) (maxDepth : Nat)
    (kids : List (List Char)) (depth : Nat) (seen : List (List Char)) :
    List (List Char) × List (List Char) :=
  match kids with
  | [] => (seen, [])
  | c :: cs =>
    let r1 := download_tree children maxDepth c depth seen
    let r2 := download_children children maxDepth cs depth r1.1
    (r2.1, r1.2 ++ r2.2)
termination_by (maxDepth + 1 - depth, kids.length + 1)
end

/-- `y` is reachable from `x` following `children` edges along a path of
length at most `k`. -/
inductive ReachWithin (children : List Char → List (List Char)) :
    Nat → List Char → List Char → Prop
  | refl (k : Nat) (x : List Char) : ReachWithin children k x x
  | step (k : Nat) (x y z : List Char) (hy : y ∈ children x)
      (h : ReachWithin children k y z) : ReachWithin children (k + 1) x z

/-! ## Lemmas -/

/-! ### `startsWith`, `findSub`, occurrences -/

/-- `needle` occurs (contiguously) somewhere in `s`. -/
def occursIn (needle s : List Char) : Prop := ∃ a b, s = a ++ needle ++ b

theorem startsWith_iff {p s : List Char} : startsWith p s = true ↔ ∃ t, s = p ++ t := by
  induction p generalizing s with
  | nil => simp [startsWith]
  | cons a as ih =>
    cases s with
    | nil => simp [startsWith]
    | cons b bs =>
      simp only [startsWith, Bool.and_eq_true, decide_eq_true_eq, ih]
      constructor
      · rintro ⟨rfl, t, rfl⟩; exact ⟨t, rfl⟩
      · rintro ⟨t, ht⟩
        injection ht with h1 h2
        exact ⟨h1.symm, t, h2⟩

theorem startsWith_append (p t : List Char) : startsWith p (p ++ t) = true :=
  startsWith_iff.mpr ⟨t, rfl⟩

theorem findSub_of_startsWith {needle s : List Char} (h : startsWith needle s = true) :
    findSub needle s = some 0 := by
  cases s with
  | nil =>
    obtain ⟨t, ht⟩ := startsWith_iff.mp h
    rcases List.append_eq_nil.mp ht.symm with ⟨h1, _⟩
    simp [findSub, h1]
  | cons c rest => simp [findSub, h]

theorem occursIn_of_startsWith_drop {needle s : List Char} {i : Nat}
    (h : startsWith needle (s.drop i) = true) : occursIn needle s := by
  obtain ⟨t, ht⟩ := startsWith_iff.mp h
  exact ⟨s.take i, t, by rw [List.append_assoc, ← ht, List.take_append_drop]⟩

theorem occursIn_length_le {needle s : List Char} (h : occursIn needle s) :
    needle.length ≤ s.length := by
  obtain ⟨a, b, rfl⟩ := h
  simp only [List.length_append]; omega

theorem count_le_of_occursIn {needle s : List Char} (c : Char) (h : occursIn needle s) :
    needle.count c ≤ s.count c := by
  obtain ⟨a, b, rfl⟩ := h
  simp only [List.count_append]; omega

theorem occursIn_append_split {p u v : List Char} (h : occursIn p (u ++ v)) :
    occursIn p u ∨ occursIn p v ∨
      ∃ p1 p2, p = p1 ++ p2 ∧ p1 ≠ [] ∧ p2 ≠ [] ∧
        (∃ a, u = a ++ p1) ∧ ∃ b, v = p2 ++ b := by
  obtain ⟨a, b, hs⟩ := h
  rw [List.append_assoc] at hs
  rcases List.append_eq_append_iff.mp hs.symm with ⟨k, hk1, hk2⟩ | ⟨k, hk1, hk2⟩
  · -- u = a ++ k, k ++ v = p ++ b
    rcases List.append_eq_append_iff.mp hk2.symm with ⟨j, hj1, hj2⟩ | ⟨j, hj1, hj2⟩
    · -- p = k ++ j, b = j ++ v
      cases k with
      | nil =>
        simp only [List.nil_append] at hj1
        subst hj1
        right; left
        exact ⟨[], b, by rw [hj2, List.nil_append]⟩
      | cons k0 ks =>
        cases j with
        | nil =>
          left
          refine ⟨a, [], ?_⟩
          rw [List.append_nil, hk1, hj1, List.append_nil]
        | cons j0 js =>
          right; right
          exact ⟨k0 :: ks, j0 :: js, hj1, by simp, by simp, ⟨a, hk1⟩, ⟨b,
            by rw [hj2]⟩⟩
    · -- k = p ++ j, v = j ++ b
      left
      exact ⟨a, j, by rw [hk1, hj1, ← List.append_assoc]⟩
  · -- a = u ++ k, v = k ++ p ++ b
    right; left
    exact ⟨k, b, by rw [hk2, List.append_assoc]⟩

theorem findSub_append_map {needle w z : List Char}
    (h : ∀ i, i < w.length → startsWith needle ((w ++ z).drop i) = false) :
    findSub needle (w ++ z) = (findSub needle z).map (· + w.length) := by
  induction w with
  | nil =>
    simp only [List.nil_append, List.length_nil]
    cases findSub needle z <;> simp
  | cons c w' ih =>
    have h0 : startsWith needle (c :: (w' ++ z)) = false := by
      have := h 0 (by simp)
      simpa using this
    have hrec : findSub needle (w' ++ z) = (findSub needle z).map (· + w'.length) := by
      apply ih
      intro i hi
      have := h (i + 1) (by simp; omega)
      simpa using this
    show (if startsWith needle (c :: (w' ++ z)) = true then some 0
      else (findSub needle (w' ++ z)).map (· + 1)) = _
    rw [h0]
    simp only [Bool.false_eq_true, if_false, hrec]
    cases findSub needle z with
    | none => rfl
    | some j =>
      simp only [Option.map_some', Option.some.injEq, List.length_cons]
      omega

theorem match_in_left_occursIn {needle w z : List Char} {i : Nat}
    (hi : i < w.length) (h : startsWith needle ((w ++ z).drop i) = true) :
    occursIn needle (w ++ z.take (needle.length - 1)) := by
  obtain ⟨t, ht⟩ := startsWith_iff.mp h
  rw [List.drop_append_of_le_length (Nat.le_of_lt hi)] at ht
  rcases List.append_eq_append_iff.mp ht.symm with ⟨k, hk1, hk2⟩ | ⟨k, hk1, hk2⟩
  · -- w.drop i = needle ++ k  : the occurrence lies inside w
    refine ⟨w.take i, k ++ z.take (needle.length - 1), ?_⟩
    conv_lhs => rw [← List.take_append_drop i w, hk1]
    simp [List.append_assoc]
  · -- needle = w.drop i ++ k, z = k ++ t : the occurrence straddles into z
    have hdlen : 0 < (w.drop i).length := by
      rw [List.length_drop]; omega
    have hklen : k.length ≤ needle.length - 1 := by
      have : needle.length = (w.drop i).length + k.length := by
        rw [hk1, List.length_append]
      omega
    have hz : z.take (needle.length - 1) = k ++ t.take (needle.length - 1 - k.length) := by
      rw [hk2, List.take_append_eq_append_take, List.take_of_length_le hklen]
    refine ⟨w.take i, t.take (needle.length - 1 - k.length), ?_⟩
    rw [hz, hk1]
    simp only [← List.append_assoc, List.take_append_drop]

theorem findSub_skip {needle w z : List Char}
    (h : ¬ occursIn needle (w ++ z.take (needle.length - 1))) :
    findSub needle (w ++ z) = (findSub needle z).map (· + w.length) := by
  apply findSub_append_map
  intro i hi
  cases hsw : startsWith needle ((w ++ z).drop i)
  · rfl
  · exact absurd (match_in_left_occursIn hi hsw) h

theorem not_occursIn_of_count {needle s : List Char} (c : Char)
    (h : s.count c < needle.count c) : ¬ occursIn needle s :=
  fun hc => absurd (count_le_of_occursIn c hc) (by omega)

/-! ### Locating the front-matter delimiters

The interior of a record's front matter is `joinLn ws` for the eleven line
bodies `ws` (each `key: value`).  The two lemmas below pin down the leftmost
occurrence of `---` (used by `save_page`'s `split("---", 2)` recovery) and of
the closing marker `\n---\n` (used by `parse_front_matter`). -/

theorem not_occursIn_dashes_newline {w : List Char}
    (hw : ¬ occursIn (str "---") w) : ¬ occursIn (str "---") (w ++ ['\n']) := by
  intro hocc
  rcases occursIn_append_split hocc with h1 | h1 | ⟨p1, p2, hp, hp1, hp2, _, b, hb⟩
  · exact hw h1
  · have := occursIn_length_le h1
    simp [str] at this
  · cases p2 with
    | nil => exact hp2 rfl
    | cons x xs =>
      have hx : '\n' = x := by
        have := hb
        simp only [List.cons_append, List.cons.injEq] at this
        exact this.1
      have : '\n' ∈ str "---" := by
        rw [hp, hx]
        simp
      simp [str] at this

theorem not_occursIn_dashes_ext {l m : List Char}
    (hl : ∃ w, l = w ++ ['\n']) (hocc : ¬ occursIn (str "---") l)
    (hm : m.length ≤ 2) : ¬ occursIn (str "---") (l ++ m) := by
  intro hc
  rcases occursIn_append_split hc with h1 | h1 | ⟨p1, p2, hp, hp1, hp2, ⟨a, ha⟩, _⟩
  · exact hocc h1
  · have := occursIn_length_le h1
    simp [str] at this
    omega
  · obtain ⟨w, rfl⟩ := hl
    have hrev := congrArg List.reverse ha
    simp only [List.reverse_append, List.reverse_cons, List.reverse_nil,
      List.nil_append, List.singleton_append] at hrev
    cases hrp : p1.reverse with
    | nil =>
      exact hp1 (by simpa using congrArg List.reverse hrp)
    | cons c cs =>
      rw [hrp] at hrev
      have hc1 : '\n' = c := by
        simp only [List.cons_append, List.cons.injEq] at hrev
        exact hrev.1
      have hcmem : c ∈ p1 := by
        rw [← List.mem_reverse, hrp]
        simp
      have : '\n' ∈ str "---" := by
        rw [hp]
        exact List.mem_append_left _ (hc1 ▸ hcmem)
      simp [str] at this

theorem findSub_dashes_join (ws : List (List Char)) (B : List Char)
    (h : ∀ w ∈ ws, ¬ occursIn (str "---") (w ++ ['\n'])) :
    findSub (str "---") (joinLn ws ++ (str "---\n" ++ B)) = some (joinLn ws).length := by
  induction ws with
  | nil =>
    have : str "---\n" ++ B = str "---" ++ (str "\n" ++ B) := by
      simp [str]
    simp only [joinLn, List.nil_append, List.length_nil, this]
    exact findSub_of_startsWith (startsWith_append _ _)
  | cons w ws ih =>
    have hre : joinLn (w :: ws) ++ (str "---\n" ++ B)
        = (w ++ ['\n']) ++ (joinLn ws ++ (str "---\n" ++ B)) := by
      simp [joinLn]
    rw [hre]
    rw [findSub_skip (by
      apply not_occursIn_dashes_ext ⟨w, rfl⟩ (h w (by simp))
      have : (str "---").length - 1 = 2 := by decide
      rw [this]
      exact (List.length_take_le _ _).trans (by simp))]
    rw [ih (fun x hx => h x (by simp [hx]))]
    simp [joinLn]
    omega

theorem findSub_marker_join (ws : List (List Char)) (wlast B : List Char)
    (h : ∀ w ∈ wlast :: ws, ¬ '\n' ∈ w ∧ 4 ≤ w.length) :
    findSub (str "\n---\n") (joinLn ws ++ (wlast ++ (str "\n---\n" ++ B)))
      = some ((joinLn ws).length + wlast.length) := by
  have hcnt : (str "\n---\n").count '\n' = 2 := by decide
  induction ws with
  | nil =>
    simp only [joinLn, List.nil_append, List.length_nil, Nat.zero_add]
    rw [findSub_skip (by
      apply not_occursIn_of_count '\n'
      rw [hcnt, List.count_append]
      have h1 : wlast.count '\n' = 0 := List.count_eq_zero.mpr (h wlast (by simp)).1
      have h2 : ((str "\n---\n" ++ B).take ((str "\n---\n").length - 1)).count '\n' ≤ 1 := by
        have : (str "\n---\n" ++ B).take ((str "\n---\n").length - 1) = str "\n---" := by
          have : str "\n---\n" ++ B = str "\n---" ++ ('\n' :: B) := by simp [str]
          rw [this]
          rw [List.take_append_of_le_length (by simp [str])]
          decide
        rw [this]
        decide
      omega)]
    rw [findSub_of_startsWith (startsWith_append _ _)]
    simp
  | cons w ws ih =>
    have hre : joinLn (w :: ws) ++ (wlast ++ (str "\n---\n" ++ B))
        = (w ++ ['\n']) ++ (joinLn ws ++ (wlast ++ (str "\n---\n" ++ B))) := by
      simp [joinLn]
    rw [hre]
    have hnext : ∃ u v, joinLn ws ++ (wlast ++ (str "\n---\n" ++ B)) = u ++ v
        ∧ ¬ '\n' ∈ u ∧ 4 ≤ u.length := by
      cases ws with
      | nil =>
        exact ⟨wlast, str "\n---\n" ++ B, by simp [joinLn], (h wlast (by simp)).1,
          (h wlast (by simp)).2⟩
      | cons w2 ws2 =>
        refine ⟨w2, '\n' :: (joinLn ws2 ++ (wlast ++ (str "\n---\n" ++ B))), ?_,
          (h w2 (by simp)).1, (h w2 (by simp)).2⟩
        simp [joinLn]
    obtain ⟨u, v, huv, hu1, hu2⟩ := hnext
    rw [findSub_skip (by
      apply not_occursIn_of_count '\n'
      rw [hcnt]
      rw [List.append_assoc]
      rw [List.count_append, List.count_append]
      have hw0 : w.count '\n' = 0 := List.count_eq_zero.mpr (h w (by simp)).1
      have hn1 : (['\n'] : List Char).count '\n' = 1 := by decide
      have htk : ((joinLn ws ++ (wlast ++ (str "\n---\n" ++ B))).take
          ((str "\n---\n").length - 1)).count '\n' = 0 := by
        apply List.count_eq_zero.mpr
        intro hmem
        rw [huv] at hmem
        have hlen : (str "\n---\n").length - 1 = 4 := by decide
        rw [hlen, List.take_append_of_le_length hu2] at hmem
        exact hu1 (List.take_subset _ _ hmem)
      omega)]
    rw [ih (fun x hx => h x (by
      rcases List.mem_cons.mp hx with rfl | hx2
      · simp
      · simp [hx2]))]
    simp [joinLn]
    omega

/-! ### `splitlines` on newline-joined blocks -/

theorem splitlinesGo_other {c : Char} (acc rest : List Char)
    (h1 : c ≠ '\r') (h2 : c ≠ '\n') :
    splitlinesGo acc (c :: rest) = splitlinesGo (c :: acc) rest := by
  rw [splitlinesGo.eq_def]
  split
  · simp_all
  · simp_all
  · simp_all
  · simp_all
  · simp_all

theorem splitlinesGo_newline (acc rest : List Char) :
    splitlinesGo acc ('\n' :: rest) = acc.reverse :: splitlinesGo [] rest := rfl

theorem splitlinesGo_nil (acc : List Char) :
    splitlinesGo acc [] = if acc.isEmpty then [] else [acc.reverse] := rfl

theorem splitlinesGo_chunk {w : List Char} (acc s : List Char)
    (h1 : '\n' ∉ w) (h2 : '\r' ∉ w) :
    splitlinesGo acc (w ++ s) = splitlinesGo (w.reverse ++ acc) s := by
  induction w generalizing acc with
  | nil => simp
  | cons c cs ih =>
    have hc1 : c ≠ '\r' := fun hc => h2 (hc ▸ List.mem_cons_self c cs)
    have hc2 : c ≠ '\n' := fun hc => h1 (hc ▸ List.mem_cons_self c cs)
    rw [List.cons_append, splitlinesGo_other _ _ hc1 hc2,
      ih (c :: acc) (fun hm => h1 (List.mem_cons_of_mem c hm))
        (fun hm => h2 (List.mem_cons_of_mem c hm))]
    simp

theorem pySplitlines_cons_line {w s : List Char} (h1 : '\n' ∉ w) (h2 : '\r' ∉ w) :
    pySplitlines (w ++ '\n' :: s) = w :: pySplitlines s := by
  unfold pySplitlines
  rw [splitlinesGo_chunk [] _ h1 h2, List.append_nil, splitlinesGo_newline]
  simp

theorem pySplitlines_last {w : List Char} (h1 : '\n' ∉ w) (h2 : '\r' ∉ w)
    (hne : w ≠ []) : pySplitlines w = [w] := by
  unfold pySplitlines
  have hch := splitlinesGo_chunk ([] : List Char) ([] : List Char) h1 h2
  rw [List.append_nil, List.append_nil] at hch
  rw [hch, splitlinesGo_nil]
  have hrev : w.reverse.isEmpty = false := by
    cases hw : w.reverse with
    | nil => exact absurd (by simpa using congrArg List.reverse hw) hne
    | cons x xs => rfl
  rw [hrev]
  simp

theorem pySplitlines_join {ws : List (List Char)} {wlast : List Char}
    (h : ∀ w ∈ ws, '\n' ∉ w ∧ '\r' ∉ w) (h1 : '\n' ∉ wlast) (h2 : '\r' ∉ wlast)
    (hne : wlast ≠ []) :
    pySplitlines (joinLn ws ++ wlast) = ws ++ [wlast] := by
  induction ws with
  | nil =>
    simp only [joinLn, List.nil_append]
    exact pySplitlines_last h1 h2 hne
  | cons w ws ih =>
    have hre : joinLn (w :: ws) ++ wlast = w ++ '\n' :: (joinLn ws ++ wlast) := by
      simp [joinLn]
    rw [hre, pySplitlines_cons_line (h w (by simp)).1 (h w (by simp)).2,
      ih (fun x hx => h x (by simp [hx]))]
    rfl

/-! ### `strip` -/

theorem dropWhile_of_firstNonSpace {s : List Char} (h : firstNonSpace s = true) :
    s.dropWhile pyIsSpace = s := by
  cases s with
  | nil => rfl
  | cons c cs =>
    simp only [firstNonSpace, Bool.not_eq_true'] at h
    simp [List.dropWhile_cons, h]

theorem pyStripL_of_firstNonSpace {s : List Char} (h : firstNonSpace s = true) :
    pyStripL s = s := dropWhile_of_firstNonSpace h

theorem pyStripR_of_lastNonSpace {s : List Char} (h : firstNonSpace s.reverse = true) :
    pyStripR s = s := by
  unfold pyStripR
  rw [dropWhile_of_firstNonSpace h, List.reverse_reverse]

theorem pyStrip_of_clean {s : List Char} (h1 : firstNonSpace s = true)
    (h2 : firstNonSpace s.reverse = true) : pyStrip s = s := by
  unfold pyStrip
  rw [pyStripL_of_firstNonSpace h1, pyStripR_of_lastNonSpace h2]

theorem pyStrip_of_cleanValue {s : List Char} (h : cleanValue s = true) :
    pyStrip s = s := by
  simp only [cleanValue, Bool.and_eq_true] at h
  exact pyStrip_of_clean h.1.2 h.2

theorem pyStrip_cons_space (v : List Char) : pyStrip (' ' :: v) = pyStrip v := by
  unfold pyStrip pyStripL
  rw [List.dropWhile_cons]
  simp [pyIsSpace]

theorem pyStripR_append_newline (x : List Char) : pyStripR (x ++ ['\n']) = pyStripR x := by
  unfold pyStripR
  rw [List.reverse_append]
  simp only [List.reverse_cons, List.reverse_nil, List.nil_append, List.singleton_append,
    List.dropWhile_cons]
  simp [pyIsSpace]

theorem pyStripR_append_colon_space (x : List Char) :
    pyStripR (x ++ [':', ' ']) = x ++ [':'] := by
  unfold pyStripR
  rw [List.reverse_append]
  simp only [List.reverse_cons, List.reverse_nil, List.nil_append, List.cons_append,
    List.dropWhile_cons]
  simp [pyIsSpace]

/-! ### Dictionary lemmas and front-matter line parsing -/

theorem dictGet_append (d1 d2 : List (List Char × List Char)) (k : List Char) :
    dictGet (d1 ++ d2) k =
      match dictGet d1 k with
      | some v => some v
      | none => dictGet d2 k := by
  induction d1 with
  | nil => rfl
  | cons p t ih =>
    obtain ⟨k', v'⟩ := p
    by_cases h : k' = k
    · simp [dictGet, h]
    · simp [dictGet, h, ih]

theorem dictInsert_of_fresh {d : List (List Char × List Char)} {k v : List Char}
    (h : dictGet d k = none) : dictInsert d k v = d ++ [(k, v)] := by
  induction d with
  | nil => rfl
  | cons p t ih =>
    obtain ⟨k', v'⟩ := p
    simp only [dictGet] at h
    by_cases hk : k' = k
    · simp [hk] at h
    · simp only [dictInsert, hk, if_false, List.cons_append, List.cons.injEq, true_and]
      exact ih (by simpa [hk] using h)

theorem foldl_parse_insert (parse : List Char → Option (List Char × List Char))
    {lines : List (List Char)} {ps : List (List Char × List Char)}
    (hf : List.Forall₂ (fun l p => parse l = some p) lines ps) :
    ∀ acc : List (List Char × List Char),
      (∀ p ∈ ps, dictGet acc p.1 = none) →
      (ps.map Prod.fst).Nodup →
      List.foldl (fun d line =>
        match parse line with
        | some kv => dictInsert d kv.1 kv.2
        | none => d) acc lines = acc ++ ps := by
  induction hf with
  | nil => intro acc _ _; simp
  | @cons l p ls ps' hlp htail ih =>
    intro acc hfresh hnd
    simp only [List.foldl_cons, hlp]
    rw [dictInsert_of_fresh (hfresh p (by simp))]
    have hfresh' : ∀ q ∈ ps', dictGet (acc ++ [p]) q.1 = none := by
      intro q hq
      rw [dictGet_append, hfresh q (by simp [hq])]
      have hne : p.1 ≠ q.1 := by
        simp only [List.map_cons, List.nodup_cons] at hnd
        exact fun hcontra => hnd.1 (hcontra ▸ List.mem_map_of_mem Prod.fst hq)
      simp [dictGet, hne]
    have hnd' : (ps'.map Prod.fst).Nodup := by
      simp only [List.map_cons, List.nodup_cons] at hnd
      exact hnd.2
    rw [ih (acc ++ [p]) hfresh' hnd']
    simp

theorem splitFirstAt_key {k v : List Char} (hk : ':' ∉ k) :
    splitFirstAt ':' (k ++ ':' :: v) = some (k, v) := by
  induction k with
  | nil => simp [splitFirstAt]
  | cons c cs ih =>
    have hc : ¬ c = ':' := fun h => hk (h ▸ List.mem_cons_self c cs)
    simp only [List.cons_append, splitFirstAt, hc, if_false, List.append_eq]
    rw [ih (fun hm => hk (List.mem_cons_of_mem c hm))]
    rfl

theorem parseMetaLine_line {k v : List Char} (hkne : k ≠ []) (hk : ':' ∉ k)
    (hkclean : pyStrip k = k) (hv : pyStrip v = v) :
    parseMetaLine (k ++ ':' :: ' ' :: v) = some (k, v) := by
  unfold parseMetaLine
  rw [splitFirstAt_key hk]
  have hke : k.isEmpty = false := by
    cases k with
    | nil => exact absurd rfl hkne
    | cons a as => rfl
  simp only [hke, List.isEmpty_cons, Bool.or_false, Bool.false_or, Bool.false_eq_true,
    if_false, Option.some.injEq]
  rw [pyStrip_cons_space, hkclean, hv]

theorem cleanValue_spec {v : List Char} (h : cleanValue v = true) :
    '\n' ∉ v ∧ '\r' ∉ v ∧ pyStrip v = v := by
  simp only [cleanValue, Bool.and_eq_true, Bool.not_eq_true'] at h
  obtain ⟨⟨⟨h1, h2⟩, h3⟩, h4⟩ := h
  exact ⟨by simpa using h1, by simpa using h2, pyStrip_of_clean h3 h4⟩

theorem metaLine_no_newline {k v : List Char} (hk : '\n' ∉ k) (hv : '\n' ∉ v) :
    '\n' ∉ (k ++ ':' :: ' ' :: v) := by
  intro hmem
  rcases List.mem_append.mp hmem with h | h
  · exact hk h
  · rcases List.mem_cons.mp h with h | h
    · simp at h
    · rcases List.mem_cons.mp h with h | h
      · simp at h
      · exact hv h

theorem metaLine_no_cr {k v : List Char} (hk : '\r' ∉ k) (hv : '\r' ∉ v) :
    '\r' ∉ (k ++ ':' :: ' ' :: v) := by
  intro hmem
  rcases List.mem_append.mp hmem with h | h
  · exact hk h
  · rcases List.mem_cons.mp h with h | h
    · simp at h
    · rcases List.mem_cons.mp h with h | h
      · simp at h
      · exact hv h

/-! ### The front matter written by `save_page`, parsed back -/

theorem joinLn_append_single (ws : List (List Char)) (w : List Char) :
    joinLn (ws ++ [w]) = joinLn ws ++ (w ++ ['\n']) := by
  induction ws with
  | nil => simp [joinLn]
  | cons x xs ih => simp [joinLn, ih]

theorem forall₂_map_left {α β : Type} (f : β → α) (P : α → β → Prop) :
    ∀ ps : List β, (∀ p ∈ ps, P (f p) p) → List.Forall₂ P (ps.map f) ps
  | [], _ => List.Forall₂.nil
  | p :: ps, h =>
    List.Forall₂.cons (h p (List.mem_cons_self p ps))
      (forall₂_map_left f P ps (fun q hq => h q (List.mem_cons_of_mem p hq)))

theorem metaPairs_fst (m : Meta) :
    (metaPairs m).map Prod.fst =
      [str "source", str "confluence_id", str "space", str "version",
       str "retrieved", str "format", str "content_hash",
       str "macro_structured_macro", str "macro_image", str "macro_link",
       str "output_hash"] := rfl

theorem metaPairs_key_facts (m : Meta) :
    ∀ p ∈ metaPairs m, p.1 ≠ [] ∧ ':' ∉ p.1 ∧ pyStrip p.1 = p.1 ∧
      '\n' ∉ p.1 ∧ '\r' ∉ p.1 ∧ 2 ≤ p.1.length := by
  intro p hp
  have hmem : p.1 ∈ (metaPairs m).map Prod.fst := List.mem_map_of_mem Prod.fst hp
  rw [metaPairs_fst] at hmem
  have hall : ∀ k ∈ [str "source", str "confluence_id", str "space", str "version",
      str "retrieved", str "format", str "content_hash",
      str "macro_structured_macro", str "macro_image", str "macro_link",
      str "output_hash"], k ≠ [] ∧ ':' ∉ k ∧ pyStrip k = k ∧
      '\n' ∉ k ∧ '\r' ∉ k ∧ 2 ≤ k.length := by decide
  exact hall p.1 hmem

theorem metaValues_of_pair {m : Meta} {p : List Char × List Char}
    (hp : p ∈ metaPairs m) : p.2 ∈ metaValues m :=
  List.mem_map_of_mem (fun q => q.2) hp

theorem metaBody_line_facts (m : Meta) (hm : ValidMeta m) :
    ∀ w ∈ metaBody m, '\n' ∉ w ∧ '\r' ∉ w ∧ 4 ≤ w.length := by
  intro w hw
  simp only [metaBody, List.mem_map] at hw
  obtain ⟨p, hp, rfl⟩ := hw
  obtain ⟨hvn, hvr, _⟩ := cleanValue_spec (hm p.2 (metaValues_of_pair hp))
  obtain ⟨_, _, _, hkn, hkr, hkl⟩ := metaPairs_key_facts m p hp
  refine ⟨metaLine_no_newline hkn hvn, metaLine_no_cr hkr hvr, ?_⟩
  simp only [List.length_append, List.length_cons]
  omega

theorem parseFrontLines_metaBody (m : Meta) (hm : ValidMeta m) :
    parseFrontLines (metaBody m) = metaPairs m := by
  have hf : List.Forall₂ (fun l p => parseMetaLine l = some p) (metaBody m) (metaPairs m) := by
    apply forall₂_map_left
    intro p hp
    obtain ⟨hk1, hk2, hk3, _, _, _⟩ := metaPairs_key_facts m p hp
    obtain ⟨_, _, hv⟩ := cleanValue_spec (hm p.2 (metaValues_of_pair hp))
    exact parseMetaLine_line hk1 hk2 hk3 hv
  have hnd : ((metaPairs m).map Prod.fst).Nodup := by
    rw [metaPairs_fst]
    decide
  have := foldl_parse_insert parseMetaLine hf []
    (fun p _ => rfl) hnd
  simpa using this

theorem decode_encode_eq (m : Meta) (B : List Char) (hm : ValidMeta m) :
    parse_front_matter (encodeRecord m B) = (metaPairs m, B) := by
  have hlines := metaBody_line_facts m hm
  have hsplit : metaBody m =
      (metaBody m).take 10 ++ [str "output_hash" ++ ':' :: ' ' :: m.output_hash] := rfl
  have hX : encodeRecord m B
      = str "---\n" ++ (joinLn (metaBody m) ++ (str "---\n" ++ B)) := by
    simp [encodeRecord, front_matter_block, List.append_assoc]
  have hX2 : joinLn (metaBody m) ++ (str "---\n" ++ B)
      = joinLn ((metaBody m).take 10)
        ++ ((str "output_hash" ++ ':' :: ' ' :: m.output_hash) ++ (str "\n---\n" ++ B)) := by
    conv_lhs => rw [hsplit, joinLn_append_single]
    simp only [List.append_assoc, List.cons_append, List.nil_append]
    rfl
  have hmemlast : (str "output_hash" ++ ':' :: ' ' :: m.output_hash) ∈ metaBody m := by
    rw [hsplit]
    exact List.mem_append_right _ (List.mem_cons_self _ _)
  have hmem0 : ∀ w ∈ (metaBody m).take 10, w ∈ metaBody m :=
    fun w hw => List.take_subset 10 (metaBody m) hw
  have hstart : startsWith (str "---") (encodeRecord m B) = true := by
    rw [hX]
    rw [show str "---\n" ++ (joinLn (metaBody m) ++ (str "---\n" ++ B))
      = str "---" ++ ('\n' :: (joinLn (metaBody m) ++ (str "---\n" ++ B))) from rfl]
    exact startsWith_append _ _
  have hstart2 : startsWith (str "---\r\n") (encodeRecord m B) = false := by
    rw [hX]
    rfl
  have hfind : findSub (str "\n---\n")
      (joinLn ((metaBody m).take 10)
        ++ ((str "output_hash" ++ ':' :: ' ' :: m.output_hash) ++ (str "\n---\n" ++ B)))
      = some ((joinLn ((metaBody m).take 10)).length
          + (str "output_hash" ++ ':' :: ' ' :: m.output_hash).length) := by
    apply findSub_marker_join
    intro w hw
    rcases List.mem_cons.mp hw with rfl | hw2
    · exact ⟨(hlines _ hmemlast).1, (hlines _ hmemlast).2.2⟩
    · exact ⟨(hlines w (hmem0 w hw2)).1, (hlines w (hmem0 w hw2)).2.2⟩
  have hdrop4 : (encodeRecord m B).drop ((str "---").length + (str "\n").length)
      = joinLn ((metaBody m).take 10)
        ++ ((str "output_hash" ++ ':' :: ' ' :: m.output_hash) ++ (str "\n---\n" ++ B)) := by
    rw [hX, show (str "---").length + (str "\n").length = (str "---\n").length from rfl,
      List.drop_left, hX2]
  have hparse : parseFrontLines (pySplitlines (joinLn ((metaBody m).take 10)
      ++ (str "output_hash" ++ ':' :: ' ' :: m.output_hash))) = metaPairs m := by
    rw [pySplitlines_join
      (fun w hw => ⟨(hlines w (hmem0 w hw)).1, (hlines w (hmem0 w hw)).2.1⟩)
      (hlines _ hmemlast).1 (hlines _ hmemlast).2.1
      (by
        intro hcontra
        have hlen4 := (hlines _ hmemlast).2.2
        rw [hcontra] at hlen4
        simp at hlen4)]
    rw [← hsplit]
    exact parseFrontLines_metaBody m hm
  unfold parse_front_matter
  rw [hstart, hstart2]
  simp only [Bool.true_eq_false, not_true, if_false, ite_false, Bool.false_eq_true,
    not_false_iff, if_true]
  rw [show str "\n" ++ str "---" ++ str "\n" = str "\n---\n" from rfl]
  rw [hdrop4, hfind]
  set N := (joinLn ((metaBody m).take 10)).length
    + (str "output_hash" ++ ':' :: ' ' :: m.output_hash).length with hN
  show (parseFrontLines (pySplitlines
      (((encodeRecord m B).take (N + ((str "---").length + (str "\n").length))).drop
        ((str "---").length + (str "\n").length))),
    (encodeRecord m B).drop
      (N + ((str "---").length + (str "\n").length) + (str "\n---\n").length))
    = (metaPairs m, B)
  have htake : ((encodeRecord m B).take (N + ((str "---").length + (str "\n").length))).drop
      ((str "---").length + (str "\n").length)
      = joinLn ((metaBody m).take 10) ++ (str "output_hash" ++ ':' :: ' ' :: m.output_hash) := by
    rw [show (str "---").length + (str "\n").length = (str "---\n").length from rfl, hX,
      Nat.add_comm N ((str "---\n").length), List.take_append, List.drop_left, hX2,
      ← List.append_assoc]
    exact List.take_left' (by rw [List.length_append, hN])
  have hbody : (encodeRecord m B).drop
      (N + ((str "---").length + (str "\n").length) + (str "\n---\n").length) = B := by
    rw [hX, hX2]
    have hshape : str "---\n" ++ (joinLn ((metaBody m).take 10)
        ++ ((str "output_hash" ++ ':' :: ' ' :: m.output_hash) ++ (str "\n---\n" ++ B)))
      = (((str "---\n" ++ joinLn ((metaBody m).take 10))
          ++ (str "output_hash" ++ ':' :: ' ' :: m.output_hash)) ++ str "\n---\n") ++ B := by
      simp [List.append_assoc]
    rw [hshape]
    apply List.drop_left'
    simp only [List.length_append]
    simp only [List.length_append] at hN
    rw [show (str "---\n").length = 4 from rfl, show (str "\n---\n").length = 5 from rfl,
      show (str "---").length = 3 from rfl, show (str "\n").length = 1 from rfl, hN]
    omega
  rw [htake, hbody, hparse]

/-! ### The `split("---", 2)` recovery of `save_page`

`save_page` re-reads the existing file with `existing_text.split("---", 2)`
(download_confluence.py lines 374-387).  When no front-matter value contains
the delimiter `---`, the middle part of the split is exactly the interior of
the front matter and the inline parse recovers every written pair. -/

theorem occursIn_mem {needle s : List Char} (h : occursIn needle s) {c : Char}
    (hc : c ∈ needle) : c ∈ s := by
  obtain ⟨a, b, rfl⟩ := h
  exact List.mem_append_left _ (List.mem_append_right _ hc)

theorem occursIn_findSub_ne_none {needle s : List Char} (h : occursIn needle s) :
    findSub needle s ≠ none := by
  obtain ⟨a, b, rfl⟩ := h
  induction a with
  | nil =>
    rw [show ([] : List Char) ++ needle ++ b = needle ++ b from by simp]
    rw [findSub_of_startsWith (startsWith_append needle b)]
    exact Option.some_ne_none 0
  | cons c a ih =>
    have hshape : (c :: a) ++ needle ++ b = c :: (a ++ needle ++ b) := by simp
    rw [hshape, findSub]
    by_cases hsw : startsWith needle (c :: (a ++ needle ++ b)) = true
    · rw [if_pos hsw]
      exact Option.some_ne_none 0
    · rw [if_neg hsw]
      intro hn
      exact ih (Option.map_eq_none'.mp hn)

theorem noDashes_not_occursIn {v : List Char} (h : noDashes v = true) :
    ¬ occursIn (str "---") v := fun hc =>
  occursIn_findSub_ne_none hc (Option.isNone_iff_eq_none.mp (by simpa [noDashes] using h))

theorem metaLine_no_dashes {k v : List Char} (hk : '-' ∉ k) (hv : noDashes v = true) :
    ¬ occursIn (str "---") (k ++ ':' :: ' ' :: v) := by
  intro hc
  have hshape : k ++ ':' :: ' ' :: v = (k ++ [':', ' ']) ++ v := by simp
  rw [hshape] at hc
  rcases occursIn_append_split hc with h1 | h1 | ⟨p1, p2, hp, hp1, _, ⟨a, ha⟩, _⟩
  · have hmem : '-' ∈ k ++ [':', ' '] := occursIn_mem h1 (by decide)
    rcases List.mem_append.mp hmem with h | h
    · exact hk h
    · simp at h
  · exact noDashes_not_occursIn hv h1
  · have hrev := congrArg List.reverse ha
    simp only [List.reverse_append, List.reverse_cons, List.reverse_nil,
      List.nil_append, List.cons_append] at hrev
    cases hrp : p1.reverse with
    | nil => exact hp1 (by simpa using congrArg List.reverse hrp)
    | cons c cs =>
      rw [hrp] at hrev
      have hc1 : ' ' = c := by
        simp only [List.cons_append, List.cons.injEq] at hrev
        exact hrev.1
      have hcm : c ∈ p1 := by
        rw [← List.mem_reverse, hrp]
        simp
      have : ' ' ∈ str "---" := by
        rw [hp]
        exact List.mem_append_left _ (hc1 ▸ hcm)
      simp [str] at this

theorem metaBody_no_dashes (m : Meta) (hm : ValidMetaND m) :
    ∀ w ∈ metaBody m, ¬ occursIn (str "---") (w ++ ['\n']) := by
  intro w hw
  simp only [metaBody, List.mem_map] at hw
  obtain ⟨p, hp, rfl⟩ := hw
  have hknd : '-' ∉ p.1 := by
    have hmem : p.1 ∈ (metaPairs m).map Prod.fst := List.mem_map_of_mem Prod.fst hp
    rw [metaPairs_fst] at hmem
    have hall : ∀ k ∈ [str "source", str "confluence_id", str "space", str "version",
        str "retrieved", str "format", str "content_hash",
        str "macro_structured_macro", str "macro_image", str "macro_link",
        str "output_hash"], '-' ∉ k := by decide
    exact hall p.1 hmem
  exact not_occursIn_dashes_newline
    (metaLine_no_dashes hknd (hm.2 p.2 (metaValues_of_pair hp)))

theorem firstNonSpace_append {X Y : List Char} (h : X ≠ []) :
    firstNonSpace (X ++ Y) = firstNonSpace X := by
  cases X with
  | nil => exact absurd rfl h
  | cons a as => rfl

theorem foldl_congr_fun {α β : Type} (f g : α → β → α) :
    ∀ (l : List β) (a : α), (∀ x ∈ l, ∀ acc, f acc x = g acc x) →
      l.foldl f a = l.foldl g a
  | [], _, _ => rfl
  | b :: l, a, h => by
    rw [List.foldl_cons, List.foldl_cons, h b (List.mem_cons_self b l) a]
    exact foldl_congr_fun f g l _ (fun x hx acc => h x (List.mem_cons_of_mem b hx) acc)

theorem forall₂_append {α β : Type} {R : α → β → Prop} :
    ∀ {l₁ : List α} {l₂ : List β}, List.Forall₂ R l₁ l₂ →
      ∀ {u₁ : List α} {u₂ : List β}, List.Forall₂ R u₁ u₂ →
        List.Forall₂ R (l₁ ++ u₁) (l₂ ++ u₂) := by
  intro l₁ l₂ h
  induction h with
  | nil => intro u₁ u₂ hu; simpa using hu
  | cons hx _ ih => intro u₁ u₂ hu; exact List.Forall₂.cons hx (ih hu)

/-- The fold of `save_page`'s inline parse (`line.split(":", 1)` with both
parts stripped) over a list of lines whose parse is known pairwise. -/
theorem existing_foldl_eq {lines : List (List Char)} {ps : List (List Char × List Char)}
    (hf : List.Forall₂ (fun l p =>
        (splitFirstAt ':' l).map (fun kv => (pyStrip kv.1, pyStrip kv.2)) = some p)
      lines ps)
    (hnd : (ps.map Prod.fst).Nodup) :
    lines.foldl (fun d line =>
      match splitFirstAt ':' line with
      | some kv => dictInsert d (pyStrip kv.1) (pyStrip kv.2)
      | none => d) [] = ps := by
  have hext := foldl_congr_fun
    (fun d line =>
      match splitFirstAt ':' line with
      | some kv => dictInsert d (pyStrip kv.1) (pyStrip kv.2)
      | none => d)
    (fun d line =>
      match (splitFirstAt ':' line).map (fun kv => (pyStrip kv.1, pyStrip kv.2)) with
      | some kv => dictInsert d kv.1 kv.2
      | none => d)
    lines []
    (by
      intro x _ acc
      cases h : splitFirstAt ':' x <;> simp [h])
  rw [hext]
  simpa using foldl_parse_insert _ hf [] (fun p _ => rfl) hnd

theorem parse_line_of_pair {m : Meta} (hm : ValidMeta m) {p : List Char × List Char}
    (hp : p ∈ metaPairs m) :
    (splitFirstAt ':' (p.1 ++ ':' :: ' ' :: p.2)).map
        (fun kv => (pyStrip kv.1, pyStrip kv.2)) = some p := by
  obtain ⟨_, hk2, hk3, _, _, _⟩ := metaPairs_key_facts m p hp
  obtain ⟨_, _, hv⟩ := cleanValue_spec (hm p.2 (metaValues_of_pair hp))
  rw [splitFirstAt_key hk2]
  simp [hk3, pyStrip_cons_space, hv]

/-- The write decision of `save_page` seen through `.written`: suppressed
exactly when the skip condition holds. -/
theorem ite_written_iff {c : Prop} [Decidable c] {r1 r2 : SaveResult}
    (h1 : r1.written = none) (h2 : r2.written ≠ none) :
    (if c then r1 else r2).written = none ↔ c := by
  by_cases hc : c
  · rw [if_pos hc]
    exact iff_of_true h1 hc
  · rw [if_neg hc]
    exact iff_of_false (fun hh => h2 hh) hc

/-- `save_page`'s inline recovery parse, applied to a record written by
`save_page` itself: when no value contains `---`, every pair is recovered. -/
theorem parseExistingMeta_encode (m : Meta) (B : List Char) (hm : ValidMetaND m) :
    parseExistingMeta (encodeRecord m B) = metaPairs m := by
  have hmv := hm.1
  have hlines := metaBody_line_facts m hmv
  have hnd := metaBody_no_dashes m hm
  have hsplit : metaBody m =
      (metaBody m).take 10 ++ [str "output_hash" ++ ':' :: ' ' :: m.output_hash] := rfl
  have hmemlast : (str "output_hash" ++ ':' :: ' ' :: m.output_hash) ∈ metaBody m := by
    rw [hsplit]
    exact List.mem_append_right _ (List.mem_cons_self _ _)
  have hmem0 : ∀ w ∈ (metaBody m).take 10, w ∈ metaBody m :=
    fun w hw => List.take_subset 10 (metaBody m) hw
  have hX : encodeRecord m B
      = str "---\n" ++ (joinLn (metaBody m) ++ (str "---\n" ++ B)) := by
    simp [encodeRecord, front_matter_block, List.append_assoc]
  have hX' : encodeRecord m B
      = str "---" ++ ('\n' :: (joinLn (metaBody m) ++ (str "---\n" ++ B))) := by
    rw [hX]
    rfl
  have hstart : startsWith (str "---") (encodeRecord m B) = true := by
    rw [hX']
    exact startsWith_append _ _
  have hf0 : findSub (str "---") (encodeRecord m B) = some 0 :=
    findSub_of_startsWith hstart
  have hdrop3 : (encodeRecord m B).drop (0 + (str "---").length)
      = '\n' :: (joinLn (metaBody m) ++ (str "---\n" ++ B)) := by
    rw [hX', Nat.zero_add, List.drop_left]
  have hfind1 : findSub (str "---") ('\n' :: (joinLn (metaBody m) ++ (str "---\n" ++ B)))
      = some ((joinLn (metaBody m)).length + 1) := by
    rw [findSub]
    have hsw : startsWith (str "---") ('\n' :: (joinLn (metaBody m) ++ (str "---\n" ++ B)))
        = false := rfl
    rw [if_neg (by rw [hsw]; exact Bool.false_ne_true)]
    rw [findSub_dashes_join (metaBody m) B hnd]
    rfl
  have htake1 : ('\n' :: (joinLn (metaBody m) ++ (str "---\n" ++ B))).take
        ((joinLn (metaBody m)).length + 1)
      = '\n' :: joinLn (metaBody m) := by
    rw [List.take_succ_cons, List.take_left]
  have hdrop1 : ('\n' :: (joinLn (metaBody m) ++ (str "---\n" ++ B))).drop
        ((joinLn (metaBody m)).length + 1 + (str "---").length)
      = '\n' :: B := by
    rw [show (joinLn (metaBody m)).length + 1 + (str "---").length
        = ((joinLn (metaBody m)).length + (str "---").length) + 1 from by omega]
    rw [List.drop_succ_cons]
    have hsh : joinLn (metaBody m) ++ (str "---\n" ++ B)
        = (joinLn (metaBody m) ++ str "---") ++ ('\n' :: B) := by
      simp [List.append_assoc, str]
    rw [hsh]
    apply List.drop_left'
    simp [str]
  have hsplit2 : pySplit (str "---") 2 (encodeRecord m B)
      = [[], '\n' :: joinLn (metaBody m), '\n' :: B] := by
    show pySplit (str "---") (1 + 1) (encodeRecord m B) = _
    rw [pySplit, hf0]
    simp only [List.take_zero]
    rw [hdrop3]
    show [] :: pySplit (str "---") (0 + 1) ('\n' :: (joinLn (metaBody m) ++ (str "---\n" ++ B))) = _
    rw [pySplit, hfind1]
    show [] :: (('\n' :: (joinLn (metaBody m) ++ (str "---\n" ++ B))).take
          ((joinLn (metaBody m)).length + 1)
        :: pySplit (str "---") 0 (('\n' :: (joinLn (metaBody m) ++ (str "---\n" ++ B))).drop
          ((joinLn (metaBody m)).length + 1 + (str "---").length))) = _
    rw [htake1, hdrop1]
    rfl
  have hstripL : pyStripL ('\n' :: joinLn (metaBody m)) = joinLn (metaBody m) := by
    show List.dropWhile pyIsSpace ('\n' :: joinLn (metaBody m)) = _
    rw [List.dropWhile_cons]
    rw [if_pos (show pyIsSpace '\n' = true from rfl)]
    exact dropWhile_of_firstNonSpace rfl
  unfold parseExistingMeta
  rw [if_pos hstart, hsplit2]
  show (pySplitlines (pyStrip ('\n' :: joinLn (metaBody m)))).foldl _ [] = _
  rw [show pyStrip ('\n' :: joinLn (metaBody m))
      = pyStripR (joinLn (metaBody m)) from by rw [pyStrip, hstripL]]
  have hjoin : joinLn (metaBody m)
      = (joinLn ((metaBody m).take 10)
          ++ (str "output_hash" ++ ':' :: ' ' :: m.output_hash)) ++ ['\n'] := by
    conv_lhs => rw [hsplit, joinLn_append_single]
    simp [List.append_assoc]
  rw [hjoin, pyStripR_append_newline]
  rcases hoh : m.output_hash with _ | ⟨c, v⟩
  · -- empty output_hash: the written line ends `: `, stripped back to `output_hash:`
    have hps : metaPairs m
        = (metaPairs m).take 10 ++ [(str "output_hash", m.output_hash)] := rfl
    have hsR : pyStripR (joinLn ((metaBody m).take 10) ++ (str "output_hash" ++ [':', ' ']))
        = joinLn ((metaBody m).take 10) ++ (str "output_hash" ++ [':']) := by
      rw [← List.append_assoc, pyStripR_append_colon_space, List.append_assoc]
    rw [hsR]
    rw [pySplitlines_join
      (fun w hw => ⟨(hlines w (hmem0 w hw)).1, (hlines w (hmem0 w hw)).2.1⟩)
      (by decide) (by decide) (by decide)]
    rw [show metaPairs m = (metaPairs m).take 10 ++ [(str "output_hash", m.output_hash)]
      from rfl]
    apply existing_foldl_eq
    · apply forall₂_append
      · have hmap : (metaBody m).take 10
            = ((metaPairs m).take 10).map (fun p => p.1 ++ ':' :: ' ' :: p.2) := rfl
        rw [hmap]
        apply forall₂_map_left
        intro p hp
        exact parse_line_of_pair hmv (List.take_subset 10 (metaPairs m) hp)
      · rw [hoh]
        exact List.Forall₂.cons (by decide) List.Forall₂.nil
    · rw [← hps, metaPairs_fst]
      decide
  · -- non-empty output_hash: the last written line ends in a non-space character
    rw [← hoh]
    have hne : m.output_hash ≠ [] := by rw [hoh]; exact List.cons_ne_nil c v
    have hclean : cleanValue m.output_hash = true :=
      hmv m.output_hash (by simp [metaValues, metaPairs])
    have hlast : firstNonSpace m.output_hash.reverse = true := by
      simp only [cleanValue, Bool.and_eq_true] at hclean
      exact hclean.2
    have hsR : pyStripR (joinLn ((metaBody m).take 10)
          ++ (str "output_hash" ++ ':' :: ' ' :: m.output_hash))
        = joinLn ((metaBody m).take 10)
          ++ (str "output_hash" ++ ':' :: ' ' :: m.output_hash) := by
      apply pyStripR_of_lastNonSpace
      have hrev : (joinLn ((metaBody m).take 10)
            ++ (str "output_hash" ++ ':' :: ' ' :: m.output_hash)).reverse
          = m.output_hash.reverse
            ++ ([' ', ':'] ++ ((str "output_hash").reverse
                ++ (joinLn ((metaBody m).take 10)).reverse)) := by
        simp [List.reverse_append, List.append_assoc]
      rw [hrev, firstNonSpace_append (by simpa using hne)]
      exact hlast
    rw [hsR]
    rw [pySplitlines_join
      (fun w hw => ⟨(hlines w (hmem0 w hw)).1, (hlines w (hmem0 w hw)).2.1⟩)
      (hlines _ hmemlast).1 (hlines _ hmemlast).2.1
      (by
        intro hcontra
        have hlen4 := (hlines _ hmemlast).2.2
        rw [hcontra] at hlen4
        simp at hlen4)]
    rw [← hsplit]
    apply existing_foldl_eq
    · have hmap : metaBody m
          = (metaPairs m).map (fun p => p.1 ++ ':' :: ' ' :: p.2) := rfl
      rw [hmap]
      apply forall₂_map_left
      intro p hp
      exact parse_line_of_pair hmv hp
    · rw [metaPairs_fst]
      decide

/-! ## Claims -/

/-- Claim C1: front-matter round-trip.  For every valid metadata map `m` and
every body `B`, decoding (`parse_front_matter`) the snapshot record produced
by encoding `m` and `B` (the front-matter block written by `save_page`
followed by the body) returns exactly the pair `(m, B)`: every key/value of
`m` is recovered unchanged — including keys whose value is the empty string,
such as an empty `content_hash` or `output_hash` — and the body is returned
verbatim, including when it contains the literal substring `---`. -/
theorem c1_front_matter_round_trip (m : Meta) (B : List Char) (hm : ValidMeta m) :
    parse_front_matter (encodeRecord m B) = (metaPairs m, B) :=
  decode_encode_eq m B hm

/-- Witness for C1 at a concrete record whose `content_hash` and
`output_hash` are empty and whose body contains `---`. -/
theorem c1_front_matter_round_trip_witness :
    ValidMeta ⟨str "https://ex.atlassian.net/wiki/spaces/S/pages/1/A---B", str "12345",
        str "S", str "3", str "2024-05-01T10:00:00", str "xhtml", str "", str "2",
        str "1", str "0", str ""⟩
      ∧ parse_front_matter (encodeRecord
          ⟨str "https://ex.atlassian.net/wiki/spaces/S/pages/1/A---B", str "12345",
           str "S", str "3", str "2024-05-01T10:00:00", str "xhtml", str "", str "2",
           str "1", str "0", str ""⟩ (str "<p>a</p>\n---\nmore"))
        = (metaPairs ⟨str "https://ex.atlassian.net/wiki/spaces/S/pages/1/A---B",
            str "12345", str "S", str "3", str "2024-05-01T10:00:00", str "xhtml",
            str "", str "2", str "1", str "0", str ""⟩, str "<p>a</p>\n---\nmore") :=
  ⟨by decide, c1_front_matter_round_trip _ _ (by decide)⟩

/-- Claim C2: version freshness.  Whenever the upload path issues an update
request, the submitted version number equals the remote page's current
version (the result of the fresh `get_page` call) plus one — for every file
content, hence for every stored front-matter `version` value, which is never
consulted. -/
theorem c2_version_freshness (md5 : List Char → List Char)
    (creds : List Char → Option Unit) (remote : Remote) (dryRun : Bool)
    (content : List Char) (id title body : List Char) (v : Nat)
    (o : Outcome) (calls : List RemoteCall) (warns : List MacroKind)
    (hres : processFile md5 creds remote dryRun content = .ok (o, calls, warns))
    (hmem : RemoteCall.updatePage id title body v ∈ calls) :
    ∃ page, remote.getPage id = some page ∧ v = page.version + 1 := by
  simp only [processFile] at hres
  split at hres
  · simp only [Except.ok.injEq, Prod.mk.injEq] at hres
    obtain ⟨-, hcalls, -⟩ := hres
    rw [← hcalls] at hmem
    simp at hmem
  · split at hres
    · simp only [Except.ok.injEq, Prod.mk.injEq] at hres
      obtain ⟨-, hcalls, -⟩ := hres
      rw [← hcalls] at hmem
      simp at hmem
    · split at hres
      · simp only [Except.ok.injEq, Prod.mk.injEq] at hres
        obtain ⟨-, hcalls, -⟩ := hres
        rw [← hcalls] at hmem
        simp at hmem
      · split at hres
        · simp only [Except.ok.injEq, Prod.mk.injEq] at hres
          obtain ⟨-, hcalls, -⟩ := hres
          rw [← hcalls] at hmem
          simp at hmem
        · split at hres
          · simp only [Except.ok.injEq, Prod.mk.injEq] at hres
            obtain ⟨-, hcalls, -⟩ := hres
            rw [← hcalls] at hmem
            simp at hmem
          · split at hres
            · exact absurd hres (by simp)
            · split at hres
              · exact absurd hres (by simp)
              · split at hres
                · exact absurd hres (by simp)
                · split at hres
                  · -- remote.getPage pid = none, request failed
                    simp only [Except.ok.injEq, Prod.mk.injEq] at hres
                    obtain ⟨-, hcalls, -⟩ := hres
                    rw [← hcalls] at hmem
                    simp at hmem
                  · -- remote.getPage pid = some page
                    rename_i page hpage
                    split at hres
                    · -- dry run
                      simp only [Except.ok.injEq, Prod.mk.injEq] at hres
                      obtain ⟨-, hcalls, -⟩ := hres
                      rw [← hcalls] at hmem
                      simp at hmem
                    · split at hres
                      · simp only [Except.ok.injEq, Prod.mk.injEq] at hres
                        obtain ⟨-, hcalls, -⟩ := hres
                        rw [← hcalls] at hmem
                        simp only [List.mem_cons, List.not_mem_nil, or_false] at hmem
                        rcases hmem with hmem | hmem
                        · exact absurd hmem (by simp)
                        · simp only [RemoteCall.updatePage.injEq] at hmem
                          obtain ⟨hid, -, -, hv⟩ := hmem
                          exact ⟨page, hid ▸ hpage, hv⟩
                      · simp only [Except.ok.injEq, Prod.mk.injEq] at hres
                        obtain ⟨-, hcalls, -⟩ := hres
                        rw [← hcalls] at hmem
                        simp only [List.mem_cons, List.not_mem_nil, or_false] at hmem
                        rcases hmem with hmem | hmem
                        · exact absurd hmem (by simp)
                        · simp only [RemoteCall.updatePage.injEq] at hmem
                          obtain ⟨hid, -, -, hv⟩ := hmem
                          exact ⟨page, hid ▸ hpage, hv⟩

/-- Witness for C2: a remote at version 4 and a changed local file lead to an
update request carrying version 5. -/
theorem c2_version_freshness_witness :
    ∃ page, (Remote.mk (fun _ => some ⟨str "T", 4⟩) (fun _ _ _ _ => some 5)).getPage (str "7")
        = some page ∧ 5 = page.version + 1 :=
  c2_version_freshness (fun s => 'h' :: s) (fun _ => some ())
    ⟨fun _ => some ⟨str "T", 4⟩, fun _ _ _ _ => some 5⟩ false
    (str "---\nsource: http://h\nconfluence_id: 7\noutput_hash: zzz\n---\n<p>x</p>")
    (str "7") (str "T") (str "<p>x</p>") 5 (.updated 5)
    [RemoteCall.getPage (str "7"), RemoteCall.updatePage (str "7") (str "T") (str "<p>x</p>") 5]
    [] rfl (by decide)

/-- Claim C3: upload skip.  When the local file's front matter carries an
`output_hash` equal to the digest of the body on disk (and the file has a
`confluence_id`, a source URL and resolvable credentials), the upload path
makes no remote call at all for that file — the returned call list is empty,
so neither `get_page` nor `update_page` is invoked — and the file is
reported as skipped. -/
theorem c3_upload_skip (md5 : List Char → List Char) (creds : List Char → Option Unit)
    (remote : Remote) (dryRun : Bool) (content src : List Char)
    (hid : dictGet (parse_front_matter content).1 (str "confluence_id") ≠ none)
    (hsrc : dictGet (parse_front_matter content).1 (str "source") = some src)
    (hsrcne : (pyStrip src).isEmpty = false)
    (hcreds : creds src = some ())
    (hhash : dictGet (parse_front_matter content).1 (str "output_hash")
      = some (get_md5_exact md5 (parse_front_matter content).2)) :
    processFile md5 creds remote dryRun content = .ok (.skippedUnchanged, [], []) := by
  have hne : (parse_front_matter content).1.isEmpty = false := by
    cases hmeta : (parse_front_matter content).1 with
    | nil => exact absurd (by rw [hmeta]; rfl) hid
    | cons a b => rfl
  simp only [processFile, hne, hsrc, hsrcne, hcreds, hhash, hid, Bool.false_eq_true,
    false_or, or_false, if_false, ite_false, decide_True, if_true, ite_true,
    decide_eq_true_eq]

/-- Witness for C3: a file whose body digest equals the stored
`output_hash` is skipped with zero remote calls. -/
theorem c3_upload_skip_witness :
    processFile (fun s => s) (fun _ => some ())
        ⟨fun _ => some ⟨str "T", 4⟩, fun _ _ _ _ => some 5⟩ false
        (str "---\nsource: http://h\nconfluence_id: 7\noutput_hash: <p>x</p>\n---\n<p>x</p>")
      = .ok (.skippedUnchanged, [], []) :=
  c3_upload_skip (fun s => s) (fun _ => some ())
    ⟨fun _ => some ⟨str "T", 4⟩, fun _ _ _ _ => some 5⟩ false
    (str "---\nsource: http://h\nconfluence_id: 7\noutput_hash: <p>x</p>\n---\n<p>x</p>")
    (str "http://h") (by decide) (by decide) (by decide) rfl (by decide)

/-- Claim C8 (code bug exhibit): a front-matter macro-count field holding
non-integer text makes the recorded-count conversion
`int(meta.get('macro_structured_macro', 0))` — which sits outside both
per-file `try` blocks — raise an uncaught `ValueError`: the whole batch
aborts, the remaining files are never processed, and no outcome is recorded,
contradicting the spec's bulkhead-per-item policy for `DecodeError`. -/
theorem c8_macro_count_crash_aborts_batch :
    processFiles (fun s => s) (fun _ => some ())
        ⟨fun _ => some ⟨str "T", 4⟩, fun _ _ _ _ => some 5⟩ false
        [str "---\nsource: http://h\nconfluence_id: 7\nmacro_structured_macro: abc\n---\nX",
         str "---\nsource: http://h\nconfluence_id: 8\noutput_hash: Y\n---\nY"]
      = ([], [], some (.intParse (str "macro_structured_macro"))) := by
  rfl

/-- Claim C9: macro-count regression is advisory.  When the upload path has
detected a change (stored `output_hash` differs from the body digest), the
recorded macro counts parse as integers, and the fresh `get_page` and the
update succeed, the upload performs the update call regardless of any
macro-count decrease, and the warning list contains exactly the kinds whose
recomputed count is strictly below the recorded one. -/
theorem c9_macro_warning_advisory (md5 : List Char → List Char)
    (creds : List Char → Option Unit) (remote : Remote) (content src : List Char)
    (os oi ol : Int) (page : PageInfo) (rv : Nat)
    (hid : dictGet (parse_front_matter content).1 (str "confluence_id") ≠ none)
    (hsrc : dictGet (parse_front_matter content).1 (str "source") = some src)
    (hsrcne : (pyStrip src).isEmpty = false)
    (hcreds : creds src = some ())
    (hhash : ∀ h, dictGet (parse_front_matter content).1 (str "output_hash") = some h →
      get_md5_exact md5 (parse_front_matter content).2 ≠ h)
    (hos : getCountField (parse_front_matter content).1 (str "macro_structured_macro") = some os)
    (hoi : getCountField (parse_front_matter content).1 (str "macro_image") = some oi)
    (hol : getCountField (parse_front_matter content).1 (str "macro_link") = some ol)
    (hpage : remote.getPage ((dictGet (parse_front_matter content).1
      (str "confluence_id")).getD []) = some page)
    (hupd : remote.update ((dictGet (parse_front_matter content).1
        (str "confluence_id")).getD []) page.title (parse_front_matter content).2
        (page.version + 1) = some rv) :
    processFile md5 creds remote false content
      = .ok (.updated rv,
          [RemoteCall.getPage ((dictGet (parse_front_matter content).1
              (str "confluence_id")).getD []),
           RemoteCall.updatePage ((dictGet (parse_front_matter content).1
              (str "confluence_id")).getD []) page.title
            (parse_front_matter content).2 (page.version + 1)],
          macroWarnings os oi ol (get_macro_counts (parse_front_matter content).2))
      ∧ (MacroKind.structuredM ∈ macroWarnings os oi ol
            (get_macro_counts (parse_front_matter content).2)
          ↔ ((get_macro_counts (parse_front_matter content).2).structuredMacros : Int) < os)
      ∧ (MacroKind.image ∈ macroWarnings os oi ol
            (get_macro_counts (parse_front_matter content).2)
          ↔ ((get_macro_counts (parse_front_matter content).2).images : Int) < oi)
      ∧ (MacroKind.link ∈ macroWarnings os oi ol
            (get_macro_counts (parse_front_matter content).2)
          ↔ ((get_macro_counts (parse_front_matter content).2).links : Int) < ol) := by
  have hne : (parse_front_matter content).1.isEmpty = false := by
    cases hmeta : (parse_front_matter content).1 with
    | nil => exact absurd (by rw [hmeta]; rfl) hid
    | cons a b => rfl
  have hunchanged : (match dictGet (parse_front_matter content).1 (str "output_hash") with
      | some h => decide (get_md5_exact md5 (parse_front_matter content).2 = h)
      | none => false) = false := by
    cases hoc : dictGet (parse_front_matter content).1 (str "output_hash") with
    | none => rfl
    | some h => simpa using hhash h hoc
  constructor
  · simp only [processFile, hne, hsrc, hsrcne, hcreds, hid, hos, hoi, hol, hpage, hupd,
      hunchanged, Bool.false_eq_true, false_or, or_false, if_false, ite_false]
  · refine ⟨?_, ?_, ?_⟩ <;>
    · unfold macroWarnings
      constructor
      · intro hmem
        split at hmem <;> split at hmem <;> split at hmem <;> simp_all
      · intro hlt
        have hpos1 : (0 : Int) ≤ ((get_macro_counts (parse_front_matter content).2).structuredMacros : Int) := Int.ofNat_nonneg _
        have hpos2 : (0 : Int) ≤ ((get_macro_counts (parse_front_matter content).2).images : Int) := Int.ofNat_nonneg _
        have hpos3 : (0 : Int) ≤ ((get_macro_counts (parse_front_matter content).2).links : Int) := Int.ofNat_nonneg _
        split <;> split <;> split <;> simp_all <;> omega

/-- Witness for C9: recorded counts 2/1/0, body containing one structured
macro and no image — warnings for the two decreased kinds, update still
issued at the fresh version. -/
theorem c9_macro_warning_advisory_witness :
    processFile (fun s => s) (fun _ => some ())
        ⟨fun _ => some ⟨str "T", 4⟩, fun _ _ _ _ => some 5⟩ false
        (str "---\nsource: http://h\nconfluence_id: 7\nmacro_structured_macro: 2\nmacro_image: 1\nmacro_link: 0\noutput_hash: zzz\n---\n<p><ac:structured-macro/></p>")
      = .ok (.updated 5,
          [RemoteCall.getPage ((dictGet (parse_front_matter
              (str "---\nsource: http://h\nconfluence_id: 7\nmacro_structured_macro: 2\nmacro_image: 1\nmacro_link: 0\noutput_hash: zzz\n---\n<p><ac:structured-macro/></p>")).1
              (str "confluence_id")).getD []),
           RemoteCall.updatePage ((dictGet (parse_front_matter
              (str "---\nsource: http://h\nconfluence_id: 7\nmacro_structured_macro: 2\nmacro_image: 1\nmacro_link: 0\noutput_hash: zzz\n---\n<p><ac:structured-macro/></p>")).1
              (str "confluence_id")).getD []) (str "T")
            (parse_front_matter
              (str "---\nsource: http://h\nconfluence_id: 7\nmacro_structured_macro: 2\nmacro_image: 1\nmacro_link: 0\noutput_hash: zzz\n---\n<p><ac:structured-macro/></p>")).2
            (4 + 1)],
          macroWarnings 2 1 0 (get_macro_counts (parse_front_matter
            (str "---\nsource: http://h\nconfluence_id: 7\nmacro_structured_macro: 2\nmacro_image: 1\nmacro_link: 0\noutput_hash: zzz\n---\n<p><ac:structured-macro/></p>")).2))
      ∧ (MacroKind.structuredM ∈ macroWarnings 2 1 0 (get_macro_counts (parse_front_matter
            (str "---\nsource: http://h\nconfluence_id: 7\nmacro_structured_macro: 2\nmacro_image: 1\nmacro_link: 0\noutput_hash: zzz\n---\n<p><ac:structured-macro/></p>")).2)
          ↔ ((get_macro_counts (parse_front_matter
            (str "---\nsource: http://h\nconfluence_id: 7\nmacro_structured_macro: 2\nmacro_image: 1\nmacro_link: 0\noutput_hash: zzz\n---\n<p><ac:structured-macro/></p>")).2).structuredMacros : Int) < 2)
      ∧ (MacroKind.image ∈ macroWarnings 2 1 0 (get_macro_counts (parse_front_matter
            (str "---\nsource: http://h\nconfluence_id: 7\nmacro_structured_macro: 2\nmacro_image: 1\nmacro_link: 0\noutput_hash: zzz\n---\n<p><ac:structured-macro/></p>")).2)
          ↔ ((get_macro_counts (parse_front_matter
            (str "---\nsource: http://h\nconfluence_id: 7\nmacro_structured_macro: 2\nmacro_image: 1\nmacro_link: 0\noutput_hash: zzz\n---\n<p><ac:structured-macro/></p>")).2).images : Int) < 1)
      ∧ (MacroKind.link ∈ macroWarnings 2 1 0 (get_macro_counts (parse_front_matter
            (str "---\nsource: http://h\nconfluence_id: 7\nmacro_structured_macro: 2\nmacro_image: 1\nmacro_link: 0\noutput_hash: zzz\n---\n<p><ac:structured-macro/></p>")).2)
          ↔ ((get_macro_counts (parse_front_matter
            (str "---\nsource: http://h\nconfluence_id: 7\nmacro_structured_macro: 2\nmacro_image: 1\nmacro_link: 0\noutput_hash: zzz\n---\n<p><ac:structured-macro/></p>")).2).links : Int) < 0) :=
  c9_macro_warning_advisory (fun s => s) (fun _ => some ())
    ⟨fun _ => some ⟨str "T", 4⟩, fun _ _ _ _ => some 5⟩
    (str "---\nsource: http://h\nconfluence_id: 7\nmacro_structured_macro: 2\nmacro_image: 1\nmacro_link: 0\noutput_hash: zzz\n---\n<p><ac:structured-macro/></p>")
    (str "http://h") 2 1 0 ⟨str "T", 4⟩ 5
    (by decide) (by decide) (by decide) rfl
    (by
      intro h heq
      have hz : some (str "zzz") = some h := heq
      injection hz with hz2
      rw [← hz2]
      decide)
    rfl rfl rfl rfl rfl

/-! ### The readability transform: matching layer -/

theorem isLowerPrefixOf_iff {lit : List Char} :
    ∀ {s : List Char}, isLowerPrefixOf lit s = true ↔
      (s.take lit.length).map lowerChar = lit ∧ lit.length ≤ s.length := by
  induction lit with
  | nil => intro s; simp [isLowerPrefixOf]
  | cons a as ih =>
    intro s
    cases s with
    | nil => simp [isLowerPrefixOf]
    | cons c cs =>
      simp only [isLowerPrefixOf, Bool.and_eq_true, decide_eq_true_eq, ih,
        List.length_cons, List.take_succ_cons, List.map_cons, List.cons.injEq]
      constructor
      · rintro ⟨rfl, h1, h2⟩
        exact ⟨⟨rfl, h1⟩, by omega⟩
      · rintro ⟨⟨rfl, h1⟩, h2⟩
        exact ⟨rfl, h1, by omega⟩

theorem lowerPrefix_unique {l1 l2 s : List Char}
    (hm1 : l1 ∈ tagLits) (hm2 : l2 ∈ tagLits)
    (h1 : isLowerPrefixOf l1 s = true) (h2 : isLowerPrefixOf l2 s = true) : l1 = l2 := by
  have hpref : ∀ a ∈ tagLits, ∀ b ∈ tagLits, a <+: b → a = b := by decide
  obtain ⟨he1, hl1⟩ := isLowerPrefixOf_iff.mp h1
  obtain ⟨he2, hl2⟩ := isLowerPrefixOf_iff.mp h2
  rcases Nat.le_total l1.length l2.length with hle | hle
  · apply hpref l1 hm1 l2 hm2
    rw [← he1, ← he2]
    have h := List.take_prefix l1.length (List.take l2.length s)
    rw [List.take_take, Nat.min_eq_left hle] at h
    exact h.map lowerChar
  · refine (hpref l2 hm2 l1 hm1 ?_).symm
    rw [← he1, ← he2]
    have h := List.take_prefix l2.length (List.take l1.length s)
    rw [List.take_take, Nat.min_eq_left hle] at h
    exact h.map lowerChar

theorem matchTag_iff {s : List Char} {n : Nat} :
    matchTag s = some n ↔
      ∃ lit ∈ tagLits, isLowerPrefixOf lit s = true ∧ n = lit.length := by
  constructor
  · intro h
    obtain ⟨lit, hmem, hf⟩ := List.exists_of_findSome?_eq_some h
    by_cases hp : isLowerPrefixOf lit s = true
    · simp only [hp, if_true, Option.some.injEq] at hf
      exact ⟨lit, hmem, hp, hf.symm⟩
    · simp [hp] at hf
  · rintro ⟨lit, hmem, hp, rfl⟩
    cases hmt : matchTag s with
    | none =>
      rw [matchTag, List.findSome?_eq_none_iff] at hmt
      have := hmt lit hmem
      simp [hp] at this
    | some k =>
      obtain ⟨lit2, hmem2, hf2⟩ := List.exists_of_findSome?_eq_some hmt
      by_cases hp2 : isLowerPrefixOf lit2 s = true
      · simp only [hp2, if_true, Option.some.injEq] at hf2
        have hlits : lit2 = lit := lowerPrefix_unique hmem2 hmem hp2 hp
        rw [← hf2, hlits]
      · simp [hp2] at hf2

theorem matchTag_nil : matchTag [] = none := by decide

theorem matchTag_head {c : Char} {rest : List Char} {n : Nat}
    (h : matchTag (c :: rest) = some n) : lowerChar c = '<' := by
  obtain ⟨lit, hmem, hp, rfl⟩ := matchTag_iff.mp h
  have hhead : ∀ l ∈ tagLits, l.head? = some '<' := by decide
  have hh := hhead lit hmem
  cases lit with
  | nil => simp at hh
  | cons a t =>
    simp only [List.head?_cons, Option.some.injEq] at hh
    subst hh
    simp only [isLowerPrefixOf, Bool.and_eq_true, decide_eq_true_eq] at hp
    exact hp.1.symm

theorem matchTag_none_of_head {c : Char} {rest : List Char} (h : lowerChar c ≠ '<') :
    matchTag (c :: rest) = none := by
  cases hmt : matchTag (c :: rest) with
  | none => rfl
  | some n => exact absurd (matchTag_head hmt) h

theorem matchTag_pos {s : List Char} {n : Nat} (h : matchTag s = some n) : 0 < n := by
  obtain ⟨lit, hmem, _, rfl⟩ := matchTag_iff.mp h
  have : ∀ l ∈ tagLits, 0 < l.length := by decide
  exact this lit hmem

theorem matchTag_le_length {s : List Char} {n : Nat} (h : matchTag s = some n) :
    n ≤ s.length := by
  obtain ⟨lit, hmem, hp, rfl⟩ := matchTag_iff.mp h
  exact (isLowerPrefixOf_iff.mp hp).2

theorem matchTag_take_append {s z : List Char} {n : Nat} (h : matchTag s = some n) :
    matchTag (s.take n ++ z) = some n := by
  obtain ⟨lit, hmem, hp, rfl⟩ := matchTag_iff.mp h
  obtain ⟨he, hl⟩ := isLowerPrefixOf_iff.mp hp
  apply matchTag_iff.mpr
  refine ⟨lit, hmem, isLowerPrefixOf_iff.mpr ⟨?_, ?_⟩, rfl⟩
  · rw [List.take_append_of_le_length (by rw [List.length_take]; omega),
      List.take_take, Nat.min_self]
    exact he
  · rw [List.length_append, List.length_take]
    omega

theorem add_linebreaks_nil (nl : List Char) : add_linebreaks_after_tags nl [] = [] := by
  rw [add_linebreaks_after_tags]

theorem add_linebreaks_cons_match {nl : List Char} {c : Char} {rest : List Char} {n : Nat}
    (h : matchTag (c :: rest) = some n) :
    add_linebreaks_after_tags nl (c :: rest)
      = (c :: rest).take n ++ nl ++ add_linebreaks_after_tags nl ((c :: rest).drop n) := by
  rw [add_linebreaks_after_tags]
  split
  · rename_i n2 heq
    rw [heq] at h
    injection h with h
    subst h
    rfl
  · rename_i heq
    rw [heq] at h
    exact absurd h (by simp)

theorem add_linebreaks_cons_none {nl : List Char} {c : Char} {rest : List Char}
    (h : matchTag (c :: rest) = none) :
    add_linebreaks_after_tags nl (c :: rest) = c :: add_linebreaks_after_tags nl rest := by
  rw [add_linebreaks_after_tags]
  split
  · rename_i n2 heq
    rw [heq] at h
    exact absurd h (by simp)
  · rfl

theorem add_linebreaks_take_drop (nl : List Char) :
    ∀ (r : List Char) (m : Nat), (∀ i, i < m → matchTag (r.drop i) = none) →
      (add_linebreaks_after_tags nl r).take m = r.take m ∧
      (add_linebreaks_after_tags nl r).drop m = add_linebreaks_after_tags nl (r.drop m) := by
  intro r
  induction r with
  | nil => intro m _; simp [add_linebreaks_nil]
  | cons c rest ih =>
    intro m h
    cases m with
    | zero => simp
    | succ m =>
      have h0 : matchTag (c :: rest) = none := by simpa using h 0 (Nat.succ_pos m)
      have hsh : ∀ i, i < m → matchTag (rest.drop i) = none := by
        intro i hi
        have := h (i + 1) (by omega)
        simpa using this
      obtain ⟨ht, hd⟩ := ih m hsh
      rw [add_linebreaks_cons_none h0]
      constructor
      · simp only [List.take_succ_cons, ht]
      · simp only [List.drop_succ_cons, hd]

theorem add_linebreaks_match' {nl s : List Char} {n : Nat} (h : matchTag s = some n) :
    add_linebreaks_after_tags nl s
      = s.take n ++ nl ++ add_linebreaks_after_tags nl (s.drop n) := by
  cases s with
  | nil => rw [matchTag_nil] at h; exact absurd h (by simp)
  | cons c rest => exact add_linebreaks_cons_match h

theorem add_linebreaks_take_no_newline :
    ∀ (r : List Char) (m : Nat), '\n' ∉ (add_linebreaks_after_tags ['\n'] r).take m →
      (add_linebreaks_after_tags ['\n'] r).take m = r.take m := by
  intro r
  induction r with
  | nil => intro m _; rw [add_linebreaks_nil]
  | cons c rest ih =>
    intro m hnn
    cases hmt : matchTag (c :: rest) with
    | none =>
      rw [add_linebreaks_cons_none hmt] at hnn ⊢
      cases m with
      | zero => simp
      | succ m =>
        simp only [List.take_succ_cons] at hnn ⊢
        rw [ih m (fun hc => hnn (List.mem_cons_of_mem c hc))]
    | some n =>
      have hnle : n ≤ (c :: rest).length := matchTag_le_length hmt
      rw [add_linebreaks_cons_match hmt] at hnn ⊢
      rcases le_or_lt m n with hmn | hmn
      · rw [List.append_assoc, List.take_append_of_le_length (by
          rw [List.length_take]; omega)]
        rw [List.take_take, Nat.min_eq_left hmn]
      · exfalso
        apply hnn
        have hget : (((c :: rest).take n ++ ['\n']
            ++ add_linebreaks_after_tags ['\n'] ((c :: rest).drop n))).get? n = some '\n' := by
          rw [List.append_assoc, List.get?_append_right (by rw [List.length_take]; omega)]
          rw [List.length_take, Nat.min_eq_left hnle]
          simp
        have hget2 : ((((c :: rest).take n ++ ['\n']
            ++ add_linebreaks_after_tags ['\n'] ((c :: rest).drop n))).take m).get? n
            = some '\n' := by
          rw [List.get?_take (by omega)]
          exact hget
        exact List.get?_mem hget2

theorem matchTag_none_transfer {c : Char} {rest : List Char}
    (h : matchTag (c :: rest) = none) :
    matchTag (c :: add_linebreaks_after_tags ['\n'] rest) = none := by
  cases hmt : matchTag (c :: add_linebreaks_after_tags ['\n'] rest) with
  | none => rfl
  | some n =>
    exfalso
    obtain ⟨lit, hmem, hp, rfl⟩ := matchTag_iff.mp hmt
    obtain ⟨he, hl⟩ := isLowerPrefixOf_iff.mp hp
    simp only [List.length_cons] at hl
    have hlitn : '\n' ∉ lit := (by decide : ∀ l ∈ tagLits, '\n' ∉ l) lit hmem
    have hpos : 0 < lit.length := (by decide : ∀ l ∈ tagLits, 0 < l.length) lit hmem
    have htn : '\n' ∉ (c :: add_linebreaks_after_tags ['\n'] rest).take lit.length := by
      intro hmem2
      have hmap : lowerChar '\n' ∈ ((c :: add_linebreaks_after_tags ['\n'] rest).take
          lit.length).map lowerChar := List.mem_map_of_mem lowerChar hmem2
      rw [he] at hmap
      exact hlitn hmap
    have htc : (c :: add_linebreaks_after_tags ['\n'] rest).take lit.length
        = c :: (add_linebreaks_after_tags ['\n'] rest).take (lit.length - 1) := by
      cases hn : lit.length with
      | zero => omega
      | succ k => simp [List.take_succ_cons]
    rw [htc] at htn he
    have htn2 : '\n' ∉ (add_linebreaks_after_tags ['\n'] rest).take (lit.length - 1) :=
      fun hc => htn (List.mem_cons_of_mem c hc)
    have htr := add_linebreaks_take_no_newline rest (lit.length - 1) htn2
    have hlen1 : ((add_linebreaks_after_tags ['\n'] rest).take (lit.length - 1)).length
        = lit.length - 1 := by
      rw [List.length_take]
      omega
    have hlen2 : lit.length - 1 ≤ rest.length := by
      rw [htr, List.length_take] at hlen1
      omega
    have hiso : isLowerPrefixOf lit (c :: rest) = true := by
      apply isLowerPrefixOf_iff.mpr
      constructor
      · rw [show (c :: rest).take lit.length = c :: rest.take (lit.length - 1) from by
          cases hn : lit.length with
          | zero => omega
          | succ k => simp [List.take_succ_cons]]
        rw [← htr, he]
      · simp only [List.length_cons]
        omega
    have := matchTag_iff.mpr ⟨lit, hmem, hiso, rfl⟩
    rw [h] at this
    exact absurd this (by simp)

theorem add_linebreaks_single_p :
    add_linebreaks_after_tags ['\n'] (str "</p>") = str "</p>\n" := by
  rw [add_linebreaks_match' (show matchTag (str "</p>") = some 4 from by decide)]
  rw [show (str "</p>").drop 4 = [] from rfl, add_linebreaks_nil]
  decide

/-- Claim C5 counterexample: the readability transform is not idempotent —
on `</p>` one application yields `</p>` followed by one newline, a second
application appends another. -/
theorem c5_transform_not_idempotent :
    add_linebreaks_after_tags ['\n'] (add_linebreaks_after_tags ['\n'] (str "</p>"))
        = str "</p>\n\n"
      ∧ add_linebreaks_after_tags ['\n'] (str "</p>") = str "</p>\n"
      ∧ add_linebreaks_after_tags ['\n'] (add_linebreaks_after_tags ['\n'] (str "</p>"))
        ≠ add_linebreaks_after_tags ['\n'] (str "</p>") := by
  have h2 : add_linebreaks_after_tags ['\n'] (str "</p>\n") = str "</p>\n\n" := by
    rw [add_linebreaks_match' (show matchTag (str "</p>\n") = some 4 from by decide)]
    rw [show (str "</p>\n").drop 4 = ['\n'] from rfl]
    rw [add_linebreaks_cons_none (matchTag_none_of_head (by decide)), add_linebreaks_nil]
    decide
  refine ⟨by rw [add_linebreaks_single_p, h2], add_linebreaks_single_p, ?_⟩
  rw [add_linebreaks_single_p, h2]
  decide

theorem add_linebreaks_twice_bounded :
    ∀ (L : Nat) (s : List Char), s.length ≤ L →
      add_linebreaks_after_tags ['\n'] (add_linebreaks_after_tags ['\n'] s)
        = add_linebreaks_after_tags ['\n', '\n'] s := by
  intro L
  induction L with
  | zero =>
    intro s hs
    have hnil : s = [] := List.eq_nil_of_length_eq_zero (by omega)
    subst hnil
    rw [add_linebreaks_nil, add_linebreaks_nil, add_linebreaks_nil]
  | succ L ih =>
    intro s hs
    cases s with
    | nil => rw [add_linebreaks_nil, add_linebreaks_nil, add_linebreaks_nil]
    | cons c rest =>
      cases hmt : matchTag (c :: rest) with
      | none =>
        rw [add_linebreaks_cons_none hmt,
          add_linebreaks_cons_none (matchTag_none_transfer hmt),
          add_linebreaks_cons_none hmt]
        rw [ih rest (by simp only [List.length_cons] at hs; omega)]
      | some n =>
        have hn1 : 0 < n := matchTag_pos hmt
        have hnle : n ≤ (c :: rest).length := matchTag_le_length hmt
        have hlen : ((c :: rest).take n).length = n := by
          rw [List.length_take]
          omega
        rw [add_linebreaks_cons_match hmt]
        rw [show (c :: rest).take n ++ ['\n']
            ++ add_linebreaks_after_tags ['\n'] ((c :: rest).drop n)
          = (c :: rest).take n ++ (['\n']
            ++ add_linebreaks_after_tags ['\n'] ((c :: rest).drop n)) from by
            simp [List.append_assoc]]
        rw [add_linebreaks_match' (matchTag_take_append hmt)]
        rw [List.take_append_of_le_length (by omega), List.take_take, Nat.min_self]
        rw [List.drop_append_of_le_length (by omega)]
        rw [show ((c :: rest).take n).drop n = [] from by
          apply List.drop_eq_nil_of_le
          omega]
        simp only [List.nil_append, List.singleton_append]
        rw [add_linebreaks_cons_none (matchTag_none_of_head (by decide))]
        rw [ih ((c :: rest).drop n) (by
          rw [List.length_drop]
          simp only [List.length_cons] at hs ⊢
          omega)]
        rw [add_linebreaks_match' (show matchTag (c :: rest) = some n from hmt)]
        simp

/-- Claim C5 (amended): applying `_add_linebreaks_after_tags` (with its
default newline) twice is the same as applying it once with a doubled
newline — each application inserts one more newline after every closing-tag
occurrence, so the transform is not idempotent on any input containing a
targeted closing tag. -/
theorem c5_transform_twice_doubles (s : List Char) :
    add_linebreaks_after_tags ['\n'] (add_linebreaks_after_tags ['\n'] s)
      = add_linebreaks_after_tags ['\n', '\n'] s :=
  add_linebreaks_twice_bounded s.length s le_rfl

/-! ### Macro-count preservation under the readability transform -/

theorem countOccur_nil (pat : List Char) : countOccur pat [] = 0 := by
  rw [countOccur]

theorem countOccur_cons_pos {pat : List Char} {c : Char} {rest : List Char}
    (h : startsWith pat (c :: rest) = true) :
    countOccur pat (c :: rest) = 1 + countOccur pat (rest.drop (pat.length - 1)) := by
  rw [countOccur, if_pos h]

theorem countOccur_cons_neg {pat : List Char} {c : Char} {rest : List Char}
    (h : startsWith pat (c :: rest) = false) :
    countOccur pat (c :: rest) = countOccur pat rest := by
  rw [countOccur, if_neg (by simp [h])]

theorem countOccur_append_skip {pat z : List Char} :
    ∀ {w : List Char}, (∀ i, i < w.length → startsWith pat ((w ++ z).drop i) = false) →
    countOccur pat (w ++ z) = countOccur pat z := by
  intro w
  induction w with
  | nil => intro _; rw [List.nil_append]
  | cons c w' ih =>
    intro h
    have h0 : startsWith pat (c :: (w' ++ z)) = false := by simpa using h 0 (by simp)
    rw [List.cons_append, countOccur_cons_neg h0]
    exact ih (fun i hi => by simpa using h (i + 1) (by simp only [List.length_cons]; omega))

/-- A macro pattern (`<ac:structured-macro`, `<ac:image`, `<ac:link`) cannot
match at any position inside a closing-tag occurrence `t` (a string whose
ASCII lowering is one of the `tagLits`). -/
theorem no_pat_match_in_tag {pa : Char} {pt lit t x : List Char}
    (hpa : lowerChar pa ≠ '/') (hmem : lit ∈ tagLits)
    (hlow : t.map lowerChar = lit) :
    ∀ i, i < t.length → startsWith ('<' :: pa :: pt) ((t ++ x).drop i) = false := by
  intro i hi
  cases hsw : startsWith ('<' :: pa :: pt) ((t ++ x).drop i) with
  | false => rfl
  | true =>
    exfalso
    obtain ⟨r, hr⟩ := startsWith_iff.mp hsw
    rw [List.drop_append_of_le_length (Nat.le_of_lt hi)] at hr
    have hlen4 : 4 ≤ lit.length := (by decide : ∀ l ∈ tagLits, 4 ≤ l.length) lit hmem
    have htlen : t.length = lit.length := by
      rw [← hlow, List.length_map]
    cases hi0 : i with
    | zero =>
      subst hi0
      rw [List.drop_zero] at hr
      cases t with
      | nil => simp at htlen; omega
      | cons t0 t1s =>
        cases t1s with
        | nil => simp at htlen; omega
        | cons t1 tr =>
          have htake2 : lit.take 2 = str "</" :=
            (by decide : ∀ l ∈ tagLits, l.take 2 = str "</") lit hmem
          have h01 : lowerChar t0 = '<' ∧ lowerChar t1 = '/' := by
            have := congrArg (List.take 2) hlow
            rw [htake2] at this
            simp only [List.map_cons, List.take_succ_cons, List.take_zero] at this
            have h2 := List.cons.inj this
            have h3 := List.cons.inj h2.2
            exact ⟨h2.1, h3.1⟩
          simp only [List.cons_append, List.cons.injEq] at hr
          obtain ⟨-, h1eq, -⟩ := hr
          exact hpa (by rw [← h1eq]; exact h01.2)
    | succ j =>
      have hget : t.get? i = some '<' := by
        have h0 : ((t.drop i) ++ x).get? 0 = some '<' := by
          rw [hr]
          rfl
        cases hdi : t.drop i with
        | nil =>
          rw [List.drop_eq_nil_iff_le] at hdi
          omega
        | cons d ds =>
          rw [hdi] at h0
          simp only [List.cons_append, List.get?_cons_zero, Option.some.injEq] at h0
          have : t.get? i = some d := by
            have := congrArg List.head? hdi
            rw [List.head?_drop] at this
            simpa using this
          rw [this, h0]
      have hlitget : lit.get? i = some '<' := by
        rw [← hlow, List.get?_map, hget]
        rfl
      have hnotail : '<' ∉ lit.tail :=
        (by decide : ∀ l ∈ tagLits, '<' ∉ l.tail) lit hmem
      apply hnotail
      cases lit with
      | nil => simp at hlitget
      | cons l0 lt =>
        rw [hi0] at hlitget
        simp only [List.get?_cons_succ] at hlitget
        exact List.get?_mem hlitget

theorem startsWith_head_ne {a b : Char} {as bs : List Char} (h : ¬ a = b) :
    startsWith (a :: as) (b :: bs) = false := by
  simp [startsWith, h]

theorem matchTag_none_in_pat_tail {pa : Char} {pt r : List Char}
    (hlt : ∀ x ∈ pa :: pt, lowerChar x ≠ '<') :
    ∀ i, i < (pa :: pt).length → matchTag (((pa :: pt) ++ r).drop i) = none := by
  intro i hi
  rw [List.drop_append_of_le_length (Nat.le_of_lt hi)]
  cases hdi : (pa :: pt).drop i with
  | nil =>
    rw [List.drop_eq_nil_iff_le] at hdi
    omega
  | cons d ds =>
    rw [List.cons_append]
    apply matchTag_none_of_head
    have hdmem : d ∈ pa :: pt := by
      have hd : d ∈ (pa :: pt).drop i := by
        rw [hdi]
        exact List.mem_cons_self _ _
      exact List.drop_subset _ _ hd
    exact hlt d hdmem

theorem countOccur_transform_bounded {pa : Char} {pt : List Char}
    (hpa : lowerChar pa ≠ '/') (hnl : '\n' ∉ ('<' :: pa :: pt))
    (hlt : ∀ x ∈ pa :: pt, lowerChar x ≠ '<') :
    ∀ (L : Nat) (s : List Char), s.length ≤ L →
      countOccur ('<' :: pa :: pt) (add_linebreaks_after_tags ['\n'] s)
        = countOccur ('<' :: pa :: pt) s := by
  intro L
  induction L with
  | zero =>
    intro s hs
    have hnil : s = [] := List.eq_nil_of_length_eq_zero (by omega)
    subst hnil
    rw [add_linebreaks_nil]
  | succ L ih =>
    intro s hs
    cases s with
    | nil => rw [add_linebreaks_nil]
    | cons c rest =>
      simp only [List.length_cons] at hs
      cases hmt : matchTag (c :: rest) with
      | some n =>
        obtain ⟨lit, hmem, hp, hneq⟩ := matchTag_iff.mp hmt
        obtain ⟨hlow, hle⟩ := isLowerPrefixOf_iff.mp hp
        have hlow2 : ((c :: rest).take n).map lowerChar = lit := by
          rw [hneq]
          exact hlow
        have htlen : ((c :: rest).take n).length = n := by
          rw [List.length_take]
          simp only [List.length_cons]
          rw [hneq]
          simp only [List.length_cons] at hle
          omega
        rw [add_linebreaks_cons_match hmt]
        rw [List.append_assoc, List.singleton_append]
        rw [countOccur_append_skip (no_pat_match_in_tag hpa hmem hlow2)]
        rw [countOccur_cons_neg (startsWith_head_ne (by decide))]
        rw [ih ((c :: rest).drop n) (by
          have hpos := matchTag_pos hmt
          rw [List.length_drop]
          simp only [List.length_cons]
          omega)]
        conv_rhs => rw [← List.take_append_drop n (c :: rest)]
        rw [countOccur_append_skip (no_pat_match_in_tag hpa hmem hlow2)]
      | none =>
        rw [add_linebreaks_cons_none hmt]
        by_cases hsw : startsWith ('<' :: pa :: pt) (c :: rest) = true
        · obtain ⟨r, hr⟩ := startsWith_iff.mp hsw
          simp only [List.cons_append, List.cons.injEq] at hr
          obtain ⟨hceq, hrest⟩ := hr
          subst hceq
          have hrest2 : rest = (pa :: pt) ++ r := hrest
          have hE := add_linebreaks_take_drop ['\n'] rest ((pa :: pt).length) (by
            intro i hi
            rw [hrest2]
            exact matchTag_none_in_pat_tail hlt i hi)
          obtain ⟨hEt, hEd⟩ := hE
          have htr : rest.take (pa :: pt).length = pa :: pt := by
            rw [hrest2, List.take_left]
          have hdr : rest.drop (pa :: pt).length = r := by
            rw [hrest2, List.drop_left]
          have hfrest : add_linebreaks_after_tags ['\n'] rest
              = (pa :: pt) ++ add_linebreaks_after_tags ['\n'] r := by
            conv_lhs => rw [← List.take_append_drop (pa :: pt).length
              (add_linebreaks_after_tags ['\n'] rest)]
            rw [hEt, htr, hEd, hdr]
          rw [hfrest]
          rw [countOccur_cons_pos (by
            rw [show ('<' :: ((pa :: pt) ++ add_linebreaks_after_tags ['\n'] r))
              = ('<' :: pa :: pt) ++ add_linebreaks_after_tags ['\n'] r from rfl]
            exact startsWith_append _ _)]
          rw [show ('<' :: pa :: pt).length - 1 = (pa :: pt).length from by simp]
          rw [List.drop_left]
          rw [hrest2]
          rw [countOccur_cons_pos (by
            rw [show ('<' :: ((pa :: pt) ++ r)) = ('<' :: pa :: pt) ++ r from rfl]
            exact startsWith_append _ _)]
          rw [show ('<' :: pa :: pt).length - 1 = (pa :: pt).length from by simp]
          rw [List.drop_left]
          rw [ih r (by
            have hlenr := congrArg List.length hrest2
            simp only [List.length_append, List.length_cons] at hlenr
            omega)]
        · have hswf : startsWith ('<' :: pa :: pt) (c :: rest) = false := by
            cases h2 : startsWith ('<' :: pa :: pt) (c :: rest) with
            | false => rfl
            | true => exact absurd h2 hsw
          rw [countOccur_cons_neg hswf]
          have hswf2 : startsWith ('<' :: pa :: pt)
              (c :: add_linebreaks_after_tags ['\n'] rest) = false := by
            cases h2 : startsWith ('<' :: pa :: pt)
                (c :: add_linebreaks_after_tags ['\n'] rest) with
            | false => rfl
            | true =>
              exfalso
              obtain ⟨r, hr⟩ := startsWith_iff.mp h2
              simp only [List.cons_append, List.cons.injEq] at hr
              obtain ⟨hceq, hfr⟩ := hr
              have hfr2 : add_linebreaks_after_tags ['\n'] rest = (pa :: pt) ++ r := hfr
              have htk : (add_linebreaks_after_tags ['\n'] rest).take (pa :: pt).length
                  = pa :: pt := by
                rw [hfr2, List.take_left]
              have hnn : '\n' ∉ (add_linebreaks_after_tags ['\n'] rest).take
                  (pa :: pt).length := by
                rw [htk]
                intro hmm
                exact hnl (List.mem_cons_of_mem '<' hmm)
              have heq := add_linebreaks_take_no_newline rest (pa :: pt).length hnn
              have hrt : rest.take (pa :: pt).length = pa :: pt := by
                rw [← heq, htk]
              have hlenk : (pa :: pt).length ≤ rest.length := by
                have := congrArg List.length hrt
                rw [List.length_take] at this
                omega
              apply hsw
              apply startsWith_iff.mpr
              refine ⟨rest.drop (pa :: pt).length, ?_⟩
              rw [hceq]
              have hre : rest = (pa :: pt) ++ rest.drop (pa :: pt).length := by
                conv_lhs => rw [← List.take_append_drop (pa :: pt).length rest]
                rw [hrt]
              rw [show ('<' :: pa :: pt) ++ rest.drop (pa :: pt).length
                = '<' :: ((pa :: pt) ++ rest.drop (pa :: pt).length) from rfl, ← hre]
          rw [countOccur_cons_neg hswf2]
          exact ih rest (by omega)

/-- Claim C10: the readability transform preserves all three macro counts —
`get_macro_counts (_add_linebreaks_after_tags s) = get_macro_counts s` for
every input, because the transform only inserts newline characters after
closing-tag occurrences and can neither create nor destroy an occurrence of
`<ac:structured-macro`, `<ac:image` or `<ac:link`; hence the upload-side
macro-count comparison is never skewed by download-time formatting alone. -/
theorem c10_macro_counts_preserved (s : List Char) :
    get_macro_counts (add_linebreaks_after_tags ['\n'] s) = get_macro_counts s := by
  unfold get_macro_counts
  have h1 : countOccur (str "<ac:structured-macro") (add_linebreaks_after_tags ['\n'] s)
      = countOccur (str "<ac:structured-macro") s :=
    @countOccur_transform_bounded 'a' (str "c:structured-macro")
      (by decide) (by decide) (by decide) s.length s le_rfl
  have h2 : countOccur (str "<ac:image") (add_linebreaks_after_tags ['\n'] s)
      = countOccur (str "<ac:image") s :=
    @countOccur_transform_bounded 'a' (str "c:image")
      (by decide) (by decide) (by decide) s.length s le_rfl
  have h3 : countOccur (str "<ac:link") (add_linebreaks_after_tags ['\n'] s)
      = countOccur (str "<ac:link") s :=
    @countOccur_transform_bounded 'a' (str "c:link")
      (by decide) (by decide) (by decide) s.length s le_rfl
  rw [h1, h2, h3]

/-- Claim C6: hash separation.  `save_page` computes `content_hash` as the
digest of the raw remote body exactly as received — independent of the
linebreak mode, i.e. before any readability transform — and `output_hash` as
the digest of the body as actually persisted (transformed exactly when the
mode is `tags`); and the digest of an empty body is the empty-string
sentinel rather than the hash of empty input. -/
theorem c6_hash_separation (md5 : List Char → List Char) (mode : List Char)
    (page : Page) (src retrieved : List Char) (existing : Option (List Char)) :
    (save_page md5 mode page src retrieved existing).content_hash
        = get_md5_exact md5 page.xhtml
      ∧ (save_page md5 mode page src retrieved existing).output_hash
        = get_md5_exact md5 (if ¬ mode.isEmpty ∧ pyLower mode = str "tags"
            then add_linebreaks_after_tags ['\n'] page.xhtml else page.xhtml)
      ∧ get_md5_exact md5 [] = [] := by
  refine ⟨?_, ?_, rfl⟩
  · simp only [save_page]
    repeat' split
    all_goals simp_all [get_md5_exact]
  · simp only [save_page]
    repeat' split
    all_goals simp_all [get_md5_exact]

/-! ### Tree walker: visited-set and depth-bound invariants -/

theorem reachWithin_mono {children : List Char → List (List Char)} {k k' : Nat}
    {x y : List Char} (hk : k ≤ k') (h : ReachWithin children k x y) :
    ReachWithin children k' x y := by
  induction h generalizing k' with
  | refl k x => exact ReachWithin.refl k' x
  | step k x y z hy h ih =>
    cases k' with
    | zero => omega
    | succ k2 => exact ReachWithin.step k2 x y z hy (ih (by omega))

theorem download_children_deep (children : List Char → List (List Char)) (maxDepth : Nat) :
    ∀ (kids : List (List Char)) (depth : Nat) (seen : List (List Char)), maxDepth < depth →
      download_children children maxDepth kids depth seen = (seen, []) := by
  intro kids
  induction kids with
  | nil =>
    intro depth seen h
    rw [download_children]
  | cons c cs ih =>
    intro depth seen h
    rw [download_children, download_tree, if_pos (Or.inr h)]
    simp only []
    rw [ih depth seen h]
    simp

mutual
theorem download_tree_spec (children : List Char → List (List Char)) (maxDepth : Nat)
    (root : List Char) (depth : Nat) (seen : List (List Char)) :
    (download_tree children maxDepth root depth seen).1
        = (download_tree children maxDepth root depth seen).2.reverse ++ seen
      ∧ (seen.Nodup → (download_tree children maxDepth root depth seen).1.Nodup)
      ∧ ∀ x ∈ (download_tree children maxDepth root depth seen).2,
          ReachWithin children (maxDepth - depth) root x := by
  rw [download_tree]
  by_cases hg : root ∈ seen ∨ maxDepth < depth
  · rw [if_pos hg]
    exact ⟨by simp, fun h => h, by simp⟩
  · rw [if_neg hg]
    push_neg at hg
    obtain ⟨hns, hnd⟩ := hg
    have hrec := download_children_spec children maxDepth (children root) (depth + 1)
      (root :: seen)
    obtain ⟨h1, h2, h3⟩ := hrec
    refine ⟨?_, ?_, ?_⟩
    · simp only [h1, List.reverse_cons, List.append_assoc, List.cons_append,
        List.nil_append]
    · intro hsn
      exact h2 (List.nodup_cons.mpr ⟨hns, hsn⟩)
    · intro x hx
      rcases List.mem_cons.mp hx with rfl | hx2
      · exact ReachWithin.refl _ _
      · rcases Nat.lt_or_ge depth maxDepth with hlt | hge
        · obtain ⟨c, hc, hr⟩ := h3 x hx2
          have hstep := ReachWithin.step (maxDepth - (depth + 1)) root c x hc hr
          exact reachWithin_mono (by omega) hstep
        · have hdeq : depth = maxDepth := by omega
          rw [download_children_deep children maxDepth (children root) (depth + 1)
            (root :: seen) (by omega)] at hx2
          simp at hx2
termination_by (maxDepth + 1 - depth, 0)

theorem download_children_spec (children : List Char → List (List Char)) (maxDepth : Nat)
    (kids : List (List Char)) (depth : Nat) (seen : List (List Char)) :
    (download_children children maxDepth kids depth seen).1
        = (download_children children maxDepth kids depth seen).2.reverse ++ seen
      ∧ (seen.Nodup → (download_children children maxDepth kids depth seen).1.Nodup)
      ∧ ∀ x ∈ (download_children children maxDepth kids depth seen).2,
          ∃ c ∈ kids, ReachWithin children (maxDepth - depth) c x := by
  match kids with
  | [] =>
    rw [download_children]
    exact ⟨by simp, fun h => h, by simp⟩
  | c :: cs =>
    rw [download_children]
    have ht := download_tree_spec children maxDepth c depth seen
    obtain ⟨ht1, ht2, ht3⟩ := ht
    have hc := download_children_spec children maxDepth cs depth
      (download_tree children maxDepth c depth seen).1
    obtain ⟨hc1, hc2, hc3⟩ := hc
    refine ⟨?_, ?_, ?_⟩
    · simp only [List.reverse_append, List.append_assoc]
      rw [hc1, ht1]
    · intro hsn
      exact hc2 (ht2 hsn)
    · intro x hx
      rcases List.mem_append.mp hx with hx1 | hx2
      · exact ⟨c, List.mem_cons_self _ _, ht3 x hx1⟩
      · obtain ⟨c2, hc2m, hr⟩ := hc3 x hx2
        exact ⟨c2, List.mem_cons_of_mem _ hc2m, hr⟩
termination_by (maxDepth + 1 - depth, kids.length + 1)
end

/-- C7: `download_tree` (a total function here by construction, mirroring the
recursion of `download_tree` in download_confluence.py) started at the root with
an empty visited set fetches each page id at most once, and every fetched id is
reachable from the root through the `children` relation in at most `maxDepth`
steps — no node beyond the depth cutoff is ever fetched. -/
theorem c7_traversal_bounded (children : List Char → List (List Char))
    (maxDepth : Nat) (root : List Char) :
    (download_tree children maxDepth root 0 []).2.Nodup
      ∧ ∀ x ∈ (download_tree children maxDepth root 0 []).2,
          ReachWithin children maxDepth root x := by
  obtain ⟨h1, h2, h3⟩ := download_tree_spec children maxDepth root 0 []
  constructor
  · have hn := h2 List.nodup_nil
    rw [h1, List.append_nil, List.nodup_reverse] at hn
    exact hn
  · intro x hx
    have := h3 x hx
    simpa using this

/-- Claim C4, counterexample.  The claimed write-suppression fails on a
record whose `source` value contains the literal `---`: `save_page` re-reads
the existing file with `existing_text.split("---", 2)`, so the third `---`
ends the middle part early, the stored `output_hash` / `content_hash` /
`version` keys are lost, and the file is rewritten even though the freshly
fetched node produces the same raw-body digest, the same rendered-body
digest and the same version as the record on disk. -/
theorem c4_write_suppression_counterexample :
    let md5 : List Char → List Char := fun _ => str "d41d8c"
    let page : Page := ⟨str "T", str "7", str "<p>hello</p>", 5, str "SP"⟩
    let m : Meta := ⟨str "http://h/a---b", str "7", str "SP", str "5", str "t",
      str "xhtml", str "d41d8c", str "0", str "0", str "0", str "d41d8c"⟩
    m.content_hash = get_md5_exact md5 page.xhtml
      ∧ m.output_hash = get_md5_exact md5 page.xhtml
      ∧ m.version = natStr page.version
      ∧ (save_page md5 (str "none") page m.source m.retrieved
          (some (encodeRecord m page.xhtml))).written ≠ none := by
  decide

/-- Claim C4, amended.  For every existing snapshot record whose metadata is
valid and whose values avoid the delimiter `---`, `save_page` suppresses the
write exactly when the stored `content_hash` equals the digest of the raw
fetched body, the stored `output_hash` equals the digest of the rendered
body as it would be persisted, and the stored `version` equals the fetched
version; if any of the three differs the record is rewritten.  (Without the
no-`---` restriction the claim is false: see the counterexample.) -/
theorem c4_write_suppression_amended (md5 : List Char → List Char)
    (linebreak_mode : List Char) (page : Page) (source_url retrieved : List Char)
    (m : Meta) (B : List Char) (hm : ValidMetaND m) :
    (save_page md5 linebreak_mode page source_url retrieved
        (some (encodeRecord m B))).written = none
      ↔ (m.content_hash = get_md5_exact md5 page.xhtml
         ∧ m.output_hash = get_md5_exact md5
             (if ¬ linebreak_mode.isEmpty ∧ pyLower linebreak_mode = str "tags" then
               add_linebreaks_after_tags ['\n'] page.xhtml
             else page.xhtml)
         ∧ m.version = natStr page.version) := by
  have hrec := parseExistingMeta_encode m B hm
  simp only [save_page, get_md5_exact]
  rw [hrec]
  rw [show dictGet (metaPairs m) (str "output_hash") = some m.output_hash from rfl,
      show dictGet (metaPairs m) (str "content_hash") = some m.content_hash from rfl,
      show dictGet (metaPairs m) (str "version") = some m.version from rfl]
  rw [ite_written_iff]
  · constructor
    · rintro ⟨h1, h2, h3⟩
      exact ⟨Option.some.inj h2, Option.some.inj h1, Option.some.inj h3⟩
    · rintro ⟨hc, ho, hv⟩
      exact ⟨congrArg Option.some ho, congrArg Option.some hc, congrArg Option.some hv⟩
  · rfl
  · simp

/-- Witness for the amended C4 at a concrete record matching the fetched
node: the write is suppressed. -/
theorem c4_write_suppression_amended_witness :
    ValidMetaND (⟨str "http://h/x", str "7", str "SP", str "5", str "t",
        str "xhtml", str "d41d8c", str "0", str "0", str "0", str "d41d8c"⟩ : Meta)
      ∧ (save_page (fun _ => str "d41d8c") (str "none")
          ⟨str "T", str "7", str "<p>hello</p>", 5, str "SP"⟩ (str "http://h/x") (str "t")
          (some (encodeRecord ⟨str "http://h/x", str "7", str "SP", str "5", str "t",
            str "xhtml", str "d41d8c", str "0", str "0", str "0", str "d41d8c"⟩
            (str "<p>hello</p>")))).written = none :=
  ⟨by decide,
   (c4_write_suppression_amended (fun _ => str "d41d8c") (str "none")
      ⟨str "T", str "7", str "<p>hello</p>", 5, str "SP"⟩ (str "http://h/x") (str "t")
      ⟨str "http://h/x", str "7", str "SP", str "5", str "t",
       str "xhtml", str "d41d8c", str "0", str "0", str "0", str "d41d8c"⟩
      (str "<p>hello</p>") (by decide)).mpr (by decide)⟩

end ConfluenceSync
